import Mathlib

set_option linter.unusedSectionVars false

/-!
Shallow embedding of the `linear` Go package (dense linear algebra:
vectors, matrices, views, Householder QR, triangular solve, OLS).

Scalars: the Go code computes over `float64`; the embedding is generic over a
`LinearOrderedField α`, with `math.Sqrt` passed explicitly as a function
parameter `sqrt : α → α`.  Executable claims are instantiated at `α := ℚ`
(all arithmetic in the cited examples is exact in binary floating point, so
the rational results agree with the float64 ones); the idealized numerical
claims about QR are instantiated at `α := ℝ` with `Real.sqrt`.

Data model: Go `arrayMatrix` stores entries in a flat array indexed
`out*ins + in` (`matrix.go`, part_002); `Mat` mirrors this with a flat list.
Imperative loops that write each entry exactly once are rendered with
`Mat.ofFn`/`Vec.ofFn`; sequential loops (back substitution, the QR column
loop) are rendered as folds; `panic` becomes `Except.error`.
-/

namespace Linear

/-- Error taxonomy of the Go package: each `panic(fmt.Errorf(...))` site is
mapped to one constructor carrying the same data the Go error message
reports. -/
inductive Err (α : Type) where
  /-- "can't solve upper triangular with less outs (%d) than ins (%d)" -/
  | outsLessThanIns (outs ins : Nat)
  /-- generic "dimension mismatch %d vs %d" -/
  | dimMismatch (a b : Nat)
  /-- "expected upper triangular but found nonzero (%d, %d is %f)" -/
  | notUpperTriangular (i o : Nat) (v : α)
  /-- "entry is too small for stability (%d, %d is %f)" -/
  | tooSmall (o : Nat) (v : α)
  /-- "these matrices cannot be composed ..." / ComposeInto mismatch -/
  | notComposable (aOuts bIns : Nat)
  /-- "dimension mismatch (%d, %d) vs (%d, %d)" (CopyInto), QR shape checks -/
  | shapeMismatch (ins outs ins2 outs2 : Nat)
  /-- "can't make vector from matrix that has %d columns" -/
  | notAColumn (ins : Nat)
  /-- "dimension mismatch %d inputs vs %d outputs" (IdentityInto) -/
  | notSquare (ins outs : Nat)
  /-- Go runtime error: flat slice index out of range (arrayMatrix.Get/Set) -/
  | indexOutOfRange (idx : Int) (len : Nat)
  /-- "(%d, %d) is out of bounds (%d, %d)" (sliceMatrix.checkBounds) -/
  | sliceOutOfBounds (i o : Int) (ins outs : Nat)
  deriving DecidableEq, Repr

/-- Decidable equality of fallible results, so that concrete runs of the
embedded functions can be checked by `decide`. -/
instance {ε β : Type} [DecidableEq ε] [DecidableEq β] : DecidableEq (Except ε β)
  | .error a, .error b => decidable_of_iff (a = b) (by simp)
  | .error _, .ok _ => isFalse (by simp)
  | .ok _, .error _ => isFalse (by simp)
  | .ok a, .ok b => decidable_of_iff (a = b) (by simp)

variable {α : Type} [LinearOrderedField α]

/-- Go `arrayVector` ([]float64): a dimension and flat backing storage. -/
structure Vec (α : Type) where
  dim : Nat
  data : List α
  deriving DecidableEq, Repr

/-- Vector read `v.Get(d)` (in-range reads of the algorithms; out-of-range
reads default to 0 and never occur on the verified paths). -/
def Vec.get (v : Vec α) (d : Nat) : α := v.data.getD d 0

/-- Vector write `v.Set(d, x)`. -/
def Vec.set (v : Vec α) (d : Nat) (x : α) : Vec α := ⟨v.dim, v.data.set d x⟩

/-- Build a vector whose entry `d` is `f d` (a loop writing each entry once). -/
def Vec.ofFn (dim : Nat) (f : Nat → α) : Vec α := ⟨dim, (List.range dim).map f⟩

/-- Go `NewArrayVector(dims)`: zero-filled storage. -/
def NewArrayVector (dim : Nat) : Vec α := ⟨dim, List.replicate dim 0⟩

/-- Go `arrayMatrix`: shape plus flat backing array indexed `out*ins + in`. -/
structure Mat (α : Type) where
  ins : Nat
  outs : Nat
  data : List α
  deriving DecidableEq, Repr

/-- Matrix read `A.Get(in, out) = array[out*ins + in]` (in-range reads of the
algorithms; the Go-level bounds behavior is modelled separately below). -/
def Mat.get (A : Mat α) (i o : Nat) : α := A.data.getD (o * A.ins + i) 0

/-- Build a matrix whose entry `(i, o)` is `f i o`, stored flat like
`arrayMatrix` (a double loop writing each entry once). -/
def Mat.ofFn (ins outs : Nat) (f : Nat → Nat → α) : Mat α :=
  ⟨ins, outs, (List.range (outs * ins)).map (fun k => f (k % ins) (k / ins))⟩

/-- Go `NewArrayMatrix(ins, outs)`: zero-filled storage. -/
def NewArrayMatrix (ins outs : Nat) : Mat α := ⟨ins, outs, List.replicate (outs * ins) 0⟩

/-- Go `Slice(A, inLo, inHi, outLo, outHi)` (part_002): the sub-rectangle
view, rendered functionally by its read behavior (the QR loop only reads
through the slices it takes of its working matrices). -/
def Slice (A : Mat α) (inLo inHi outLo outHi : Nat) : Mat α :=
  Mat.ofFn (inHi - inLo) (outHi - outLo) (fun i o => A.get (inLo + i) (outLo + o))

/-- Go `Dual(A)` (part_002 view / linear.go copy): transpose, with
`Dual(A).Get(in, out) = A.Get(out, in)` and swapped shape. -/
def Dual (A : Mat α) : Mat α :=
  Mat.ofFn A.outs A.ins (fun i o => A.get o i)

/-- Go `IsZero(A)` (part_002): true iff every entry is exactly 0. -/
def IsZero (A : Mat α) : Bool :=
  (List.range A.outs).all fun o => (List.range A.ins).all fun i => decide (A.get i o = 0)

/-- Go `CopyInto(src, dst)` (part_002): shape check, then copy all entries of
`src` into `dst`; returns the new contents of `dst`. -/
def CopyInto (src dst : Mat α) : Except (Err α) (Mat α) :=
  if dst.ins ≠ src.ins ∨ dst.outs ≠ src.outs then
    .error (.shapeMismatch src.ins src.outs dst.ins dst.outs)
  else .ok (Mat.ofFn dst.ins dst.outs src.get)

/-- Go `Identity(dim)` (part_002): ones on the diagonal, zeros elsewhere. -/
def Identity (dim : Nat) : Mat α :=
  Mat.ofFn dim dim (fun i o => if i = o then 1 else 0)

/-- Go `IdentityInto(dst)` (part_002): square check, then overwrite `dst`
with the identity; returns the new contents of `dst`. -/
def IdentityInto (dst : Mat α) : Except (Err α) (Mat α) :=
  if dst.ins ≠ dst.outs then .error (.notSquare dst.ins dst.outs)
  else .ok (Mat.ofFn dst.ins dst.outs (fun i o => if i = o then 1 else 0))

/-- Go `Compose(A, B)` (part_002): "A then B", the matrix product `B·A`;
entry `(i, o)` is `Σ_k A(i,k)·B(k,o)`, after the `aOuts == bIns` check. -/
def Compose (A B : Mat α) : Except (Err α) (Mat α) :=
  if A.outs ≠ B.ins then .error (.notComposable A.outs B.ins)
  else .ok (Mat.ofFn A.ins B.outs
    (fun i o => ∑ k in Finset.range A.outs, A.get i k * B.get k o))

/-- Go `ApplyToMatrix(A, X) = Compose(X, A)` (part_002). -/
def ApplyToMatrix (A X : Mat α) : Except (Err α) (Mat α) := Compose X A

/-- Go `ApplyToVector(A, x)` (part_002): dimension check, then
entry `o = Σ_i A(i,o)·x(i)`. -/
def ApplyToVector (A : Mat α) (x : Vec α) : Except (Err α) (Vec α) :=
  if x.dim ≠ A.ins then .error (.dimMismatch A.ins x.dim)
  else .ok (Vec.ofFn A.outs (fun o => ∑ i in Finset.range A.ins, A.get i o * x.get i))

/-- Go `BasisVector(dim, index)` (vector.go): 1 at `index`, 0 elsewhere. -/
def BasisVector (dim index : Nat) : Vec α :=
  Vec.ofFn dim (fun d => if d = index then 1 else 0)

/-- Go `VectorFromColumn(A)` (vector.go): view of a single-column matrix as a
vector, after the `ins == 1` check. -/
def VectorFromColumn (A : Mat α) : Except (Err α) (Vec α) :=
  if A.ins ≠ 1 then .error (.notAColumn A.ins)
  else .ok (Vec.ofFn A.outs (fun d => A.get 0 d))

variable (sqrt : α → α)

/-- Go `L2Norm(v)` (vector.go): `math.Sqrt` of the sum of squares. -/
def L2Norm (v : Vec α) : α :=
  sqrt (∑ d in Finset.range v.dim, v.get d * v.get d)

/-- Go `Normalize(v)` (vector.go): fresh vector with every entry divided by
the L2 norm. -/
def Normalize (v : Vec α) : Vec α :=
  Vec.ofFn v.dim (fun d => v.get d / L2Norm sqrt v)

/-- Numerical-stability threshold `1e-9` used by the triangular solvers. -/
def eps : α := 1 / 1000000000

/-- The lower-triangle index pairs `(i, o)` with `o > i` scanned by the
solver's upper-triangularity check, in scan order (`i` outer, `o` inner). -/
def lowerPairs (ins outs : Nat) : List (Nat × Nat) :=
  (List.range ins).flatMap (fun i => ((List.range outs).drop (i + 1)).map (fun o => (i, o)))

/-- The first strictly-below-diagonal nonzero entry of `A`, if any: the entry
whose discovery makes `FindInputToUpperTriangularInto` panic. -/
def firstLowerNonzero (A : Mat α) : Option (Nat × Nat) :=
  (lowerPairs A.ins A.outs).find? (fun p => decide (A.get p.1 p.2 ≠ 0))

/-- One iteration of the back-substitution loop of
`FindInputToUpperTriangularInto` (part_006) at row `o`:
`dot = Σ_{i=o+1}^{ins-1} x(i)·A(i,o)`, `x(o) = (b(o) − dot)/A(o,o)`, with the
`math.Abs(denom) < 1e-9` singularity check. -/
def backSubStep (A : Mat α) (b : Vec α) (x : Vec α) (o : Nat) : Except (Err α) (Vec α) :=
  let dot := ∑ i in Finset.Ico (o + 1) A.ins, x.get i * A.get i o
  let numer := b.get o - dot
  let denom := A.get o o
  if |denom| < eps then .error (.tooSmall o denom)
  else .ok (x.set o (numer / denom))

/-- Go `FindInputToUpperTriangularInto(A, b, x)` (part_006): shape checks,
explicit upper-triangularity scan, then back substitution for `o` from
`ins-1` down to `0`; returns the new contents of `x`. -/
def FindInputToUpperTriangularInto (A : Mat α) (b x : Vec α) : Except (Err α) (Vec α) :=
  if A.outs < A.ins then .error (.outsLessThanIns A.outs A.ins)
  else if b.dim ≠ A.outs then .error (.dimMismatch b.dim A.outs)
  else if x.dim ≠ A.ins then .error (.dimMismatch x.dim A.ins)
  else match firstLowerNonzero A with
    | some p => .error (.notUpperTriangular p.1 p.2 (A.get p.1 p.2))
    | none => ((List.range A.ins).reverse).foldlM (backSubStep A b) x

/-- Go `FindInputToUpperTriangular(A, b)` (part_006): allocates `x` of
dimension `ins` and solves into it. -/
def FindInputToUpperTriangular (A : Mat α) (b : Vec α) : Except (Err α) (Vec α) :=
  FindInputToUpperTriangularInto A b (NewArrayVector A.ins)

/-- One iteration of the back-substitution loop of `SolveUpperTriangular`
(linear.go): identical to `backSubStep` except that the stability check is
`denom < 1e-9` on the SIGNED value (no `math.Abs`). -/
def solveStep (A : Mat α) (b : Vec α) (x : Vec α) (o : Nat) : Except (Err α) (Vec α) :=
  let dot := ∑ i in Finset.Ico (o + 1) A.ins, x.get i * A.get i o
  let numer := b.get o - dot
  let denom := A.get o o
  if denom < eps then .error (.tooSmall o denom)
  else .ok (x.set o (numer / denom))

/-- Go `SolveUpperTriangular(A, b)` (linear.go): shape checks, triangularity
scan, back substitution with the signed `denom < 1e-9` check. -/
def SolveUpperTriangular (A : Mat α) (b : Vec α) : Except (Err α) (Vec α) :=
  if A.outs < A.ins then .error (.outsLessThanIns A.outs A.ins)
  else if b.dim ≠ A.outs then .error (.dimMismatch b.dim A.outs)
  else match firstLowerNonzero A with
    | some p => .error (.notUpperTriangular p.1 p.2 (A.get p.1 p.2))
    | none => ((List.range A.ins).reverse).foldlM (solveStep A b) (NewArrayVector A.ins)

/-- Go `FindInputUpperTriangularInto(A, b, x)` (part_005, second half): the
older solver variant; it checks the dimensions of `x` and `b` and
`outs >= ins`, but performs NO upper-triangularity scan before back
substitution. -/
def FindInputUpperTriangularInto (A : Mat α) (b x : Vec α) : Except (Err α) (Vec α) :=
  if x.dim ≠ A.ins then .error (.dimMismatch A.ins x.dim)
  else if b.dim ≠ A.outs then .error (.dimMismatch A.outs b.dim)
  else if A.outs < A.ins then .error (.outsLessThanIns A.outs A.ins)
  else ((List.range A.ins).reverse).foldlM (backSubStep A b) x

/-- Go `FindInputUpperTriangular(A, b)` (part_005, second half). -/
def FindInputUpperTriangular (A : Mat α) (b : Vec α) : Except (Err α) (Vec α) :=
  FindInputUpperTriangularInto A b (NewArrayVector A.ins)

end Linear

namespace Linear

variable {α : Type} [LinearOrderedField α] (sqrt : α → α)

/-- Go `HouseholderInto(x, e, H)` (part_006): dimension checks, then
`mag = L2Norm(x)`, `sign = ±1` by the sign of `x[0]`,
`u[d] = x[d] + sign·mag·e[d]`, `v = Normalize(u)`, and
`H = I − 2·v·vᵗ` written entrywise over the freshly reset identity;
returns the new contents of `H`. -/
def HouseholderInto (x e : Vec α) (H : Mat α) : Except (Err α) (Mat α) :=
  if e.dim ≠ x.dim then .error (.dimMismatch x.dim e.dim)
  else if H.ins ≠ H.outs then .error (.dimMismatch H.ins H.outs)
  else if H.ins ≠ x.dim then .error (.dimMismatch H.ins x.dim)
  else
    let dim := x.dim
    let xmag := L2Norm sqrt x
    let x0sign : α := if x.get 0 < 0 then -1 else 1
    let u := Vec.ofFn dim (fun d => x.get d + x0sign * xmag * e.get d)
    let v := Normalize sqrt u
    (IdentityInto H).map
      (fun H1 => Mat.ofFn dim dim (fun i o => H1.get i o - 2 * v.get o * v.get i))

/-- Go `Householder(x, e)` (part_006): allocate `Identity(x.Dimension())`
and fill it via `HouseholderInto`. -/
def Householder (x e : Vec α) : Except (Err α) (Mat α) :=
  HouseholderInto sqrt x e (Identity x.dim)

/-- The normalized shift direction `v = Normalize(u)`,
`u[d] = x[d] + sign·‖x‖₂·e[d]`, computed by `HouseholderInto`; named here so
that lemmas can refer to it. -/
def householderV (x e : Vec α) : Vec α :=
  Normalize sqrt (Vec.ofFn x.dim (fun d =>
    x.get d + (if x.get 0 < 0 then (-1 : α) else 1) * L2Norm sqrt x * e.get d))

/-- Explicit-state rendering of writing a block through
`Slice(H, inLo, inLo+B.ins, outLo, outLo+B.outs)`: entries inside the
rectangle come from `B`, the rest keep `H`'s values. -/
def setBlock (H : Mat α) (inLo outLo : Nat) (B : Mat α) : Mat α :=
  Mat.ofFn H.ins H.outs (fun i o =>
    if inLo ≤ i ∧ i < inLo + B.ins ∧ outLo ≤ o ∧ o < outLo + B.outs then
      B.get (i - inLo) (o - outLo)
    else H.get i o)

/-- One iteration of the QR column loop of `DecomposeIntoQR` (part_006) at
column `i`: skip if the sub-diagonal block is all zero, otherwise build the
Householder reflection of the pivot column embedded in an identity, and
replace the working pair `(tmpQ, tmpR)` by
`(Compose(Dual(H), tmpQ), ApplyToMatrix(H, tmpR))`. -/
def qrStep (outs : Nat) (state : Mat α × Mat α) (i : Nat) :
    Except (Err α) (Mat α × Mat α) :=
  let tmpQ := state.1
  let tmpR := state.2
  let sub := Slice tmpR i (i + 1) (i + 1) outs
  if IsZero sub then .ok (tmpQ, tmpR)
  else do
    let x ← VectorFromColumn (Slice tmpR i (i + 1) i outs)
    let e := BasisVector x.dim 0
    let H0 : Mat α := Identity outs
    let block ← HouseholderInto sqrt x e (Slice H0 i outs i outs)
    let H := setBlock H0 i i block
    let tmpR' ← ApplyToMatrix H tmpR
    let tmpQ' ← Compose (Dual H) tmpQ
    .ok (tmpQ', tmpR')

/-- Go `DecomposeIntoQR(A, Q, R)` (part_006): shape checks on `Q` and `R`,
working pair initialized to `(Identity(outs), Slice(A, 0, ins, 0, outs))`,
the column loop, and finally `CopyInto` the results; returns the new
contents of `(Q, R)`. -/
def DecomposeIntoQR (A Q R : Mat α) : Except (Err α) (Mat α × Mat α) :=
  if Q.ins ≠ A.outs ∨ Q.outs ≠ A.outs then
    .error (.shapeMismatch A.outs A.outs Q.ins Q.outs)
  else if R.ins ≠ A.ins ∨ R.outs ≠ A.outs then
    .error (.shapeMismatch A.ins A.outs R.ins R.outs)
  else do
    let init : Mat α × Mat α := (Identity A.outs, Slice A 0 A.ins 0 A.outs)
    let res ← (List.range A.ins).foldlM (qrStep sqrt A.outs) init
    let Qres ← CopyInto res.1 Q
    let Rres ← CopyInto res.2 R
    .ok (Qres, Rres)

/-- Go `DecomposeQR(A)` (part_006): allocate fresh `Q` (`outs×outs`) and `R`
(`ins×outs`) and decompose into them. -/
def DecomposeQR (A : Mat α) : Except (Err α) (Mat α × Mat α) :=
  DecomposeIntoQR sqrt A (NewArrayMatrix A.outs A.outs) (NewArrayMatrix A.ins A.outs)

/-- Go `OrdinaryLeastSquares(X, y)` (part_006):
`(Q,R) = DecomposeQR(X)`; `b = ApplyToVector(Dual(Q), y)`;
`FindInputToUpperTriangular(R, b)`. -/
def OrdinaryLeastSquares (X : Mat α) (y : Vec α) : Except (Err α) (Vec α) := do
  let QR ← DecomposeQR sqrt X
  let b ← ApplyToVector (Dual QR.1) y
  FindInputToUpperTriangular QR.2 b

/-- Invariant of the part_006 QR column loop after processing columns
`0..i-1`: the working pair `(tmpQ, tmpR)` keeps its shapes, `tmpQ` has
orthonormal rows, `Compose(tmpR, tmpQ)` reconstructs `A` entrywise, and the
processed columns of `tmpR` are zero strictly below the diagonal. -/
def QRInv (A : Mat α) (i : Nat) (QT : Mat α × Mat α) : Prop :=
  QT.1.ins = A.outs ∧ QT.1.outs = A.outs ∧ QT.2.ins = A.ins ∧ QT.2.outs = A.outs ∧
  (∀ a b, a < A.outs → b < A.outs →
    ∑ k in Finset.range A.outs, QT.1.get a k * QT.1.get b k =
      (if a = b then 1 else 0)) ∧
  (∀ a b, a < A.ins → b < A.outs →
    ∑ k in Finset.range A.outs, QT.2.get a k * QT.1.get k b = A.get a b) ∧
  (∀ c o, c < i → c < A.ins → o < A.outs → c < o → QT.2.get c o = 0)

/-!
Index-level models of `Get`/`Set` on the concrete Matrix variants
(matrix.go / part_002), faithful to Go down to the runtime bounds check.
Indices are Go `int`s, modelled as `Int`.

`arrayMatrix.Get(in, out)` performs `m.array[out*m.ins+in]` with no check of
its own: the only check is the Go runtime's, on the flat index against the
backing array length.  `sliceMatrix.Get` first runs `checkBounds`, which
panics when `in < 0 || in > inHi-inLo || out < 0 || out > outHi-outLo`
(note the non-strict `>`), then forwards `(inLo+in, outLo+out)` to the
parent -- here taken to be a dense `arrayMatrix`, as in the claim.
-/

/-- Go `arrayMatrix.Get(in, out)`: flat read `array[out*ins+in]`, failing
with the Go runtime's index-out-of-range panic and nothing else. -/
def arrayMatrixGet (A : Mat α) (i o : Int) : Except (Err α) α :=
  let idx : Int := o * A.ins + i
  if 0 ≤ idx ∧ idx < A.data.length then .ok (A.data.getD idx.toNat 0)
  else .error (.indexOutOfRange idx A.data.length)

/-- Go `arrayMatrix.Set(in, out, v)`: flat write `array[out*ins+in] = v`,
failing with the Go runtime's index-out-of-range panic and nothing else;
returns the new contents. -/
def arrayMatrixSet (A : Mat α) (i o : Int) (v : α) : Except (Err α) (Mat α) :=
  let idx : Int := o * A.ins + i
  if 0 ≤ idx ∧ idx < A.data.length then .ok ⟨A.ins, A.outs, A.data.set idx.toNat v⟩
  else .error (.indexOutOfRange idx A.data.length)

/-- Go `sliceMatrix.checkBounds(in, out)`: panics iff
`in < 0 || in > inHi-inLo || out < 0 || out > outHi-outLo`. -/
def sliceCheckFails (inLo inHi outLo outHi : Nat) (i o : Int) : Prop :=
  i < 0 ∨ (inHi : Int) - inLo < i ∨ o < 0 ∨ (outHi : Int) - outLo < o

instance (inLo inHi outLo outHi : Nat) (i o : Int) :
    Decidable (sliceCheckFails inLo inHi outLo outHi i o) := by
  unfold sliceCheckFails; infer_instance

/-- Go `sliceMatrix.Get(in, out)` over a dense parent `A`: `checkBounds`,
then `A.Get(inLo+in, outLo+out)`. -/
def sliceMatrixGet (A : Mat α) (inLo inHi outLo outHi : Nat) (i o : Int) :
    Except (Err α) α :=
  if sliceCheckFails inLo inHi outLo outHi i o then
    .error (.sliceOutOfBounds i o (inHi - inLo) (outHi - outLo))
  else arrayMatrixGet A (inLo + i) (outLo + o)

/-- Go `sliceMatrix.Set(in, out, v)` over a dense parent `A`: `checkBounds`,
then `A.Set(inLo+in, outLo+out, v)`. -/
def sliceMatrixSet (A : Mat α) (inLo inHi outLo outHi : Nat) (i o : Int) (v : α) :
    Except (Err α) (Mat α) :=
  if sliceCheckFails inLo inHi outLo outHi i o then
    .error (.sliceOutOfBounds i o (inHi - inLo) (outHi - outLo))
  else arrayMatrixSet A (inLo + i) (outLo + o) v

end Linear

namespace Linear

/-!
Heap-based embedding for the frame/aliasing claim about `DecomposeQR`
(part_006).  Matrices are references: dense array handles into an explicit
heap of flat arrays, or views (slice, dual) of a parent reference, exactly
as in matrix.go / part_002.  Each Go function is re-embedded as a state
monad computation so that allocation, in-place mutation and aliasing are
observable.
-/

/-- A Matrix value as Go holds it: a dense `arrayMatrix` handle or a
`sliceMatrix`/`dualMatrix` view of a parent. -/
inductive MRef where
  | arr (id ins outs : Nat)
  | slice (p : MRef) (inLo inHi outLo outHi : Nat)
  | dual (p : MRef)
  deriving DecidableEq, Repr

/-- Go `Shape()` (pure: reads no entry storage). -/
def MRef.shape : MRef → Nat × Nat
  | .arr _ ins outs => (ins, outs)
  | .slice _ inLo inHi outLo outHi => (inHi - inLo, outHi - outLo)
  | .dual p => ((p.shape).2, (p.shape).1)

/-- The id of the backing array a reference ultimately reads and writes. -/
def MRef.baseId : MRef → Nat
  | .arr id _ _ => id
  | .slice p _ _ _ _ => p.baseId
  | .dual p => p.baseId

/-- A Vector value: a dense `arrayVector` handle or the
`VectorFromColumn` view of a matrix reference. -/
inductive VRef where
  | arr (id dim : Nat)
  | col (m : MRef)
  deriving DecidableEq, Repr

/-- Go `Dimension()`. -/
def VRef.dim : VRef → Nat
  | .arr _ d => d
  | .col m => (m.shape).2

/-- The id of the backing array of a vector reference. -/
def VRef.baseId : VRef → Nat
  | .arr id _ => id
  | .col m => m.baseId

/-- Machine state: flat arrays by id (`heap id` is the backing array of the
object with that id, indexed `out*ins + in`), plus the next fresh id. -/
structure St (α : Type) where
  heap : Nat → Nat → α
  next : Nat

/-- State-and-error monad of the heap embedding: Go panics become errors,
everything else threads the heap. -/
def M (α β : Type) : Type := St α → Except (Err α) (β × St α)

instance {α : Type} : Monad (M α) where
  pure a := fun st => .ok (a, st)
  bind m f := fun st =>
    match m st with
    | .error e => .error e
    | .ok (a, st1) => f a st1

/-- Go `panic`. -/
def mthrow {α β : Type} (e : Err α) : M α β := fun _ => .error e

variable {α : Type} [LinearOrderedField α]

/-- Write `v` at flat position `k` of array `id`. -/
def heapWrite (st : St α) (id k : Nat) (v : α) : St α :=
  ⟨fun id2 => if id2 = id then
      (fun k2 => if k2 = k then v else st.heap id2 k2)
    else st.heap id2, st.next⟩

/-- Go `NewArrayMatrix(ins, outs)`: allocate a fresh zero array. -/
def newArrayMatrixS (ins outs : Nat) : M α MRef := fun st =>
  .ok (.arr st.next ins outs,
    ⟨fun id => if id = st.next then (fun _ => 0) else st.heap id, st.next + 1⟩)

/-- Go `NewArrayVector(dim)`: allocate a fresh zero array. -/
def newArrayVectorS (dim : Nat) : M α VRef := fun st =>
  .ok (.arr st.next dim,
    ⟨fun id => if id = st.next then (fun _ => 0) else st.heap id, st.next + 1⟩)

/-- Go `Matrix.Get` on a reference: `arrayMatrix` does the flat runtime
check; `sliceMatrix` runs `checkBounds` (with its non-strict `>`) and
recurses on the parent; `dualMatrix` swaps the indices. -/
def mgetM : MRef → Nat → Nat → M α α
  | .arr id ins outs, i, o => fun st =>
    if o * ins + i < outs * ins then .ok (st.heap id (o * ins + i), st)
    else .error (.indexOutOfRange (o * ins + i) (outs * ins))
  | .slice p inLo inHi outLo outHi, i, o =>
    if inHi - inLo < i ∨ outHi - outLo < o then
      mthrow (.sliceOutOfBounds i o (inHi - inLo) (outHi - outLo))
    else mgetM p (inLo + i) (outLo + o)
  | .dual p, i, o => mgetM p o i

/-- Go `Matrix.Set` on a reference, mirroring `mgetM`. -/
def msetM : MRef → Nat → Nat → α → M α Unit
  | .arr id ins outs, i, o, v => fun st =>
    if o * ins + i < outs * ins then .ok ((), heapWrite st id (o * ins + i) v)
    else .error (.indexOutOfRange (o * ins + i) (outs * ins))
  | .slice p inLo inHi outLo outHi, i, o, v =>
    if inHi - inLo < i ∨ outHi - outLo < o then
      mthrow (.sliceOutOfBounds i o (inHi - inLo) (outHi - outLo))
    else msetM p (inLo + i) (outLo + o) v
  | .dual p, i, o, v => msetM p o i v

/-- Go `Vector.Get` on a reference. -/
def vgetM : VRef → Nat → M α α
  | .arr id dim, d => fun st =>
    if d < dim then .ok (st.heap id d, st) else .error (.indexOutOfRange d dim)
  | .col m, d => mgetM m 0 d

/-- Go `Vector.Set` on a reference. -/
def vsetM : VRef → Nat → α → M α Unit
  | .arr id dim, d, v => fun st =>
    if d < dim then .ok ((), heapWrite st id d v)
    else .error (.indexOutOfRange d dim)
  | .col m, d, v => msetM m 0 d v

/-- Go `Identity(dim)` (part_002): fresh zero matrix, then ones on the
diagonal. -/
def IdentityS (dim : Nat) : M α MRef := do
  let I ← newArrayMatrixS dim dim
  let _ ← (List.range dim).foldlM (fun _ d => msetM I d d 1) ()
  pure I

/-- Go `IdentityInto(dst)` (part_002). -/
def IdentityIntoS (dst : MRef) : M α Unit := do
  if (dst.shape).1 ≠ (dst.shape).2 then
    mthrow (.notSquare (dst.shape).1 (dst.shape).2)
  else
    (List.range (dst.shape).2).foldlM (fun _ o =>
      (List.range (dst.shape).1).foldlM (fun _ i =>
        msetM dst i o (if i = o then 1 else 0)) ()) ()

/-- Go `CopyInto(src, dst)` (part_002). -/
def CopyIntoS (src dst : MRef) : M α Unit := do
  if (dst.shape).1 ≠ (src.shape).1 ∨ (dst.shape).2 ≠ (src.shape).2 then
    mthrow (.shapeMismatch (src.shape).1 (src.shape).2 (dst.shape).1 (dst.shape).2)
  else
    (List.range (src.shape).2).foldlM (fun _ o =>
      (List.range (src.shape).1).foldlM (fun _ i => do
        let v ← mgetM src i o
        msetM dst i o v) ()) ()

/-- Go `IsZero(A)` (part_002): scan all entries for an exact nonzero. -/
def IsZeroS (A : MRef) : M α Bool :=
  (List.range (A.shape).2).foldlM (fun acc o =>
    (List.range (A.shape).1).foldlM (fun acc2 i => do
      let v ← mgetM A i o
      pure (acc2 && decide (v = 0))) acc) true

/-- Go `ComposeInto(A, B, dst)` (part_002). -/
def ComposeIntoS (A B dst : MRef) : M α Unit := do
  if (A.shape).2 ≠ (B.shape).1 then
    mthrow (.notComposable (A.shape).2 (B.shape).1)
  else
    (List.range (B.shape).2).foldlM (fun _ o =>
      (List.range (A.shape).1).foldlM (fun _ i => do
        let dot ← (List.range (A.shape).2).foldlM (fun acc k => do
          let x ← mgetM A i k
          let y ← mgetM B k o
          pure (acc + x * y)) 0
        msetM dst i o dot) ()) ()

/-- Go `Compose(A, B)` (part_002): fresh result matrix, then `ComposeInto`. -/
def ComposeS (A B : MRef) : M α MRef := do
  let dst ← newArrayMatrixS (A.shape).1 (B.shape).2
  let _ ← ComposeIntoS A B dst
  pure dst

/-- Go `ApplyToMatrix(A, X) = Compose(X, A)` (part_002). -/
def ApplyToMatrixS (A X : MRef) : M α MRef := ComposeS X A

/-- Go `VectorFromColumn(A)` (vector.go): a view, after the `ins == 1`
check. -/
def VectorFromColumnS (A : MRef) : M α VRef :=
  if (A.shape).1 ≠ 1 then mthrow (.notAColumn (A.shape).1)
  else pure (.col A)

/-- Go `BasisVector(dim, index)` (vector.go). -/
def BasisVectorS (dim index : Nat) : M α VRef := do
  let e ← newArrayVectorS dim
  let _ ← vsetM e index 1
  pure e

variable (sqrt : α → α)

/-- Go `L2Norm(v)` (vector.go). -/
def L2NormS (v : VRef) : M α α := do
  let sum ← (List.range v.dim).foldlM (fun acc d => do
    let a ← vgetM v d
    pure (acc + a * a)) 0
  pure (sqrt sum)

/-- Go `Normalize(v)` (vector.go): fresh vector, then `NormalizeInto`. -/
def NormalizeS (v : VRef) : M α VRef := do
  let dst ← newArrayVectorS v.dim
  if VRef.dim dst ≠ v.dim then mthrow (.dimMismatch v.dim (VRef.dim dst))
  else do
    let mag ← L2NormS sqrt v
    let _ ← (List.range v.dim).foldlM (fun _ d => do
      let a ← vgetM v d
      vsetM dst d (a / mag)) ()
    pure dst

/-- Go `HouseholderInto(x, e, H)` (part_006), heap version. -/
def HouseholderIntoS (x e : VRef) (H : MRef) : M α Unit := do
  if e.dim ≠ x.dim then mthrow (.dimMismatch x.dim e.dim)
  else if (H.shape).1 ≠ (H.shape).2 then
    mthrow (.dimMismatch (H.shape).1 (H.shape).2)
  else if (H.shape).1 ≠ x.dim then mthrow (.dimMismatch (H.shape).1 x.dim)
  else do
    let xmag ← L2NormS sqrt x
    let x0 ← vgetM x 0
    let x0sign : α := if x0 < 0 then -1 else 1
    let u ← newArrayVectorS x.dim
    let _ ← (List.range x.dim).foldlM (fun _ d => do
      let xd ← vgetM x d
      let ed ← vgetM e d
      vsetM u d (xd + x0sign * xmag * ed)) ()
    let v ← NormalizeS sqrt u
    let _ ← IdentityIntoS H
    (List.range x.dim).foldlM (fun _ o =>
      (List.range x.dim).foldlM (fun _ i => do
        let hio ← mgetM H i o
        let vo ← vgetM v o
        let vi ← vgetM v i
        msetM H i o (hio - 2 * vo * vi)) ()) ()

/-- One iteration of the `DecomposeIntoQR` column loop (part_006), heap
version. -/
def qrStepS (outs : Nat) (state : MRef × MRef) (i : Nat) : M α (MRef × MRef) := do
  let tmpQ := state.1
  let tmpR := state.2
  let sub : MRef := .slice tmpR i (i + 1) (i + 1) outs
  let z ← IsZeroS sub
  if z then pure (tmpQ, tmpR)
  else do
    let x ← VectorFromColumnS (.slice tmpR i (i + 1) i outs)
    let e ← BasisVectorS x.dim 0
    let H ← IdentityS outs
    let _ ← HouseholderIntoS sqrt x e (.slice H i outs i outs)
    let tmpR2 ← ApplyToMatrixS H tmpR
    let tmpQ2 ← ComposeS (.dual H) tmpQ
    pure (tmpQ2, tmpR2)

/-- Go `DecomposeIntoQR(A, Q, R)` (part_006), heap version. -/
def DecomposeIntoQRS (A Q R : MRef) : M α Unit := do
  if (Q.shape).1 ≠ (A.shape).2 ∨ (Q.shape).2 ≠ (A.shape).2 then
    mthrow (.shapeMismatch (A.shape).2 (A.shape).2 (Q.shape).1 (Q.shape).2)
  else if (R.shape).1 ≠ (A.shape).1 ∨ (R.shape).2 ≠ (A.shape).2 then
    mthrow (.shapeMismatch (A.shape).1 (A.shape).2 (R.shape).1 (R.shape).2)
  else do
    let tmpQ0 ← IdentityS (A.shape).2
    let tmpR0 : MRef := .slice A 0 (A.shape).1 0 (A.shape).2
    let res ← (List.range (A.shape).1).foldlM (qrStepS sqrt (A.shape).2)
      (tmpQ0, tmpR0)
    let _ ← CopyIntoS res.1 Q
    CopyIntoS res.2 R

/-- Go `DecomposeQR(A)` (part_006), heap version: allocates fresh `Q` and
`R` and decomposes into them, returning the two references. -/
def DecomposeQRS (A : MRef) : M α (MRef × MRef) := do
  let Q ← newArrayMatrixS (A.shape).2 (A.shape).2
  let R ← newArrayMatrixS (A.shape).1 (A.shape).2
  let _ ← DecomposeIntoQRS sqrt A Q R
  pure (Q, R)

/-- Frame property: a successful run only grows the allocation counter and
leaves every previously-allocated array outside `ids` untouched. -/
def WritesOnly {β : Type} (m : M α β) (ids : List Nat) : Prop :=
  ∀ st r st', m st = .ok (r, st') →
    st.next ≤ st'.next ∧
    ∀ id, id < st.next → id ∉ ids → st'.heap id = st.heap id

/-- Allocation pattern: a successful run returns a reference whose backing
id is fresh, grows the counter, and leaves all old arrays untouched. -/
def AllocLikeM (m : M α MRef) : Prop :=
  ∀ st r st', m st = .ok (r, st') →
    st.next ≤ st'.next ∧ st.next ≤ r.baseId ∧
    ∀ id, id < st.next → st'.heap id = st.heap id

/-- Allocation pattern for vector-returning operations. -/
def AllocLikeV (m : M α VRef) : Prop :=
  ∀ st r st', m st = .ok (r, st') →
    st.next ≤ st'.next ∧ st.next ≤ r.baseId ∧
    ∀ id, id < st.next → st'.heap id = st.heap id

end Linear

/-!
Lemma and theorem section.  Everything below is proved about the embedded
definitions above.
-/

namespace Linear

variable {α : Type} [LinearOrderedField α]

theorem Vec.ofFn_get (dim : Nat) (f : Nat → α) (d : Nat) (h : d < dim) :
    (Vec.ofFn dim f).get d = f d := by
  simp [Vec.get, Vec.ofFn, List.getD_eq_getElem?_getD, List.getElem?_map,
    List.getElem?_range, h]

theorem Vec.dim_ofFn (dim : Nat) (f : Nat → α) : (Vec.ofFn dim f).dim = dim := rfl

theorem Mat.get_ofFn (ins outs : Nat) (f : Nat → Nat → α) (i o : Nat)
    (hi : i < ins) (ho : o < outs) : (Mat.ofFn ins outs f).get i o = f i o := by
  have hidx : o * ins + i < outs * ins := by
    calc o * ins + i < o * ins + ins := by omega
    _ = (o + 1) * ins := by ring
    _ ≤ outs * ins := Nat.mul_le_mul_right ins ho
  have hpos : 0 < ins := Nat.lt_of_le_of_lt (Nat.zero_le i) hi
  have hmod : (o * ins + i) % ins = i := by
    rw [Nat.add_comm, Nat.add_mul_mod_self_right, Nat.mod_eq_of_lt hi]
  have hdiv : (o * ins + i) / ins = o := by
    rw [Nat.add_comm, Nat.add_mul_div_right _ _ hpos, Nat.div_eq_of_lt hi, Nat.zero_add]
  simp [Mat.get, Mat.ofFn, List.getD_eq_getElem?_getD, List.getElem?_map,
    List.getElem?_range, hidx, hmod, hdiv]

theorem Mat.ins_ofFn (ins outs : Nat) (f : Nat → Nat → α) :
    (Mat.ofFn ins outs f).ins = ins := rfl

theorem Mat.outs_ofFn (ins outs : Nat) (f : Nat → Nat → α) :
    (Mat.ofFn ins outs f).outs = outs := rfl

theorem Slice_get (A : Mat α) (inLo inHi outLo outHi i o : Nat)
    (hi : i < inHi - inLo) (ho : o < outHi - outLo) :
    (Slice A inLo inHi outLo outHi).get i o = A.get (inLo + i) (outLo + o) :=
  Mat.get_ofFn _ _ _ _ _ hi ho

theorem Dual_get (A : Mat α) (i o : Nat) (hi : i < A.outs) (ho : o < A.ins) :
    (Dual A).get i o = A.get o i :=
  Mat.get_ofFn _ _ _ _ _ hi ho

theorem Identity_get (dim i o : Nat) (hi : i < dim) (ho : o < dim) :
    (Identity dim : Mat α).get i o = if i = o then 1 else 0 :=
  Mat.get_ofFn _ _ _ _ _ hi ho

end Linear

namespace Linear

variable {α : Type} [LinearOrderedField α]

theorem Vec.dim_set (v : Vec α) (d : Nat) (x : α) : (v.set d x).dim = v.dim := rfl

theorem Vec.length_set (v : Vec α) (d : Nat) (x : α) :
    (v.set d x).data.length = v.data.length := by
  simp [Vec.set]

theorem Vec.get_set_self (v : Vec α) (d : Nat) (x : α) (h : d < v.data.length) :
    (v.set d x).get d = x := by
  simp [Vec.set, Vec.get, List.getD_eq_getElem?_getD, List.getElem?_set, h]

theorem Vec.get_set_ne (v : Vec α) (d d' : Nat) (x : α) (h : d' ≠ d) :
    (v.set d x).get d' = v.get d' := by
  have hne : d ≠ d' := fun hh => h hh.symm
  simp [Vec.set, Vec.get, List.getD_eq_getElem?_getD, List.getElem?_set, hne]

theorem NewArrayVector_dim (dim : Nat) : (NewArrayVector dim : Vec α).dim = dim := rfl

theorem NewArrayVector_length (dim : Nat) :
    (NewArrayVector dim : Vec α).data.length = dim := by
  simp [NewArrayVector]

theorem NewArrayVector_get (dim d : Nat) : (NewArrayVector dim : Vec α).get d = 0 := by
  by_cases h : d < dim
  · simp [NewArrayVector, Vec.get, List.getD_eq_getElem?_getD, List.getElem?_replicate, h]
  · simp [NewArrayVector, Vec.get, List.getD_eq_getElem?_getD, List.getElem?_replicate, h]

theorem IsZero_eq_true_iff (A : Mat α) :
    IsZero A = true ↔ ∀ o < A.outs, ∀ i < A.ins, A.get i o = 0 := by
  simp [IsZero, List.all_eq_true, List.mem_range]

theorem mem_drop_range (k n o : Nat) : o ∈ (List.range n).drop k ↔ k ≤ o ∧ o < n := by
  simp only [List.mem_iff_getElem?, List.getElem?_drop]
  constructor
  · rintro ⟨m, hm⟩
    have h1 : k + m < n := by
      by_contra hc
      rw [List.getElem?_eq_none (by simpa using hc)] at hm
      exact Option.noConfusion hm
    rw [List.getElem?_range h1] at hm
    cases hm
    omega
  · rintro ⟨h1, h2⟩
    refine ⟨o - k, ?_⟩
    rw [show k + (o - k) = o by omega, List.getElem?_range h2]

theorem mem_lowerPairs (ins outs : Nat) (p : Nat × Nat) :
    p ∈ lowerPairs ins outs ↔ p.1 < ins ∧ p.1 < p.2 ∧ p.2 < outs := by
  obtain ⟨i, o⟩ := p
  simp only [lowerPairs, List.mem_flatMap, List.mem_map, List.mem_range]
  constructor
  · rintro ⟨i', hi', o', ho', heq⟩
    obtain ⟨h1, h2⟩ := Prod.mk.injEq .. ▸ heq
    subst h1; subst h2
    obtain ⟨ha, hb⟩ := (mem_drop_range _ _ _).mp ho'
    exact ⟨hi', by omega, hb⟩
  · rintro ⟨h1, h2, h3⟩
    exact ⟨i, h1, o, (mem_drop_range _ _ _).mpr ⟨by omega, h3⟩, rfl⟩

theorem firstLowerNonzero_eq_none_iff (A : Mat α) :
    firstLowerNonzero A = none ↔
      ∀ i o, i < A.ins → i < o → o < A.outs → A.get i o = 0 := by
  simp only [firstLowerNonzero, List.find?_eq_none]
  constructor
  · intro h i o h1 h2 h3
    have := h (i, o) ((mem_lowerPairs _ _ _).mpr ⟨h1, h2, h3⟩)
    simpa using this
  · intro h p hp
    obtain ⟨h1, h2, h3⟩ := (mem_lowerPairs _ _ _).mp hp
    simpa using h p.1 p.2 h1 h2 h3

theorem firstLowerNonzero_some (A : Mat α) (p : Nat × Nat)
    (h : firstLowerNonzero A = some p) :
    p.1 < A.ins ∧ p.1 < p.2 ∧ p.2 < A.outs ∧ A.get p.1 p.2 ≠ 0 := by
  have hmem := List.mem_of_find?_eq_some h
  have hpred := List.find?_some h
  obtain ⟨h1, h2, h3⟩ := (mem_lowerPairs _ _ _).mp hmem
  simp only [decide_eq_true_eq] at hpred
  exact ⟨h1, h2, h3, hpred⟩

end Linear

namespace Linear

variable {α : Type} [LinearOrderedField α]

theorem range_succ_reverse (m : Nat) :
    (List.range (m + 1)).reverse = m :: (List.range m).reverse := by
  rw [List.range_succ, List.reverse_append, List.reverse_cons, List.reverse_nil,
    List.nil_append, List.singleton_append]

/-- Back substitution (part_006 loop) succeeds when every diagonal entry
processed is at least `eps` in magnitude, and the result satisfies the back
substitution recurrence; entries at or above the loop range are untouched. -/
theorem backSub_ok (A : Mat α) (b : Vec α) :
    ∀ (m : Nat) (x : Vec α), m ≤ A.ins → x.data.length = A.ins →
    (∀ o, o < m → eps ≤ |A.get o o|) →
    ∃ y : Vec α, ((List.range m).reverse).foldlM (backSubStep A b) x = .ok y ∧
      y.data.length = A.ins ∧ y.dim = x.dim ∧
      (∀ o, m ≤ o → y.get o = x.get o) ∧
      (∀ o, o < m → y.get o =
        (b.get o - ∑ i in Finset.Ico (o + 1) A.ins, y.get i * A.get i o) / A.get o o) := by
  intro m
  induction m with
  | zero =>
    intro x _ hx _
    exact ⟨x, rfl, hx, rfl, fun o _ => rfl, fun o ho => absurd ho (Nat.not_lt_zero o)⟩
  | succ m ih =>
    intro x hm hx hdiag
    have hmins : m < A.ins := hm
    have hbig : eps ≤ |A.get m m| := hdiag m (Nat.lt_succ_self m)
    rw [range_succ_reverse, List.foldlM_cons]
    have hstep : backSubStep A b x m =
        .ok (x.set m ((b.get m - ∑ i in Finset.Ico (m + 1) A.ins,
          x.get i * A.get i m) / A.get m m)) := by
      unfold backSubStep
      rw [if_neg (not_lt.mpr hbig)]
    rw [hstep]
    set v := (b.get m - ∑ i in Finset.Ico (m + 1) A.ins, x.get i * A.get i m) / A.get m m
      with hv
    obtain ⟨y, hy1, hy2, hy3, hy4, hy5⟩ := ih (x.set m v) (Nat.le_of_succ_le hm)
      (by rw [Vec.length_set]; exact hx) (fun o ho => hdiag o (Nat.lt_succ_of_lt ho))
    refine ⟨y, ?_, hy2, by rw [hy3, Vec.dim_set], ?_, ?_⟩
    · simpa using hy1
    · intro o ho
      rw [hy4 o (by omega), Vec.get_set_ne _ _ _ _ (by omega)]
    · intro o ho
      rcases Nat.lt_succ_iff_lt_or_eq.mp ho with ho' | ho'
      · exact hy5 o ho'
      · subst ho'
        have hym : y.get o = v := by
          rw [hy4 o (Nat.le_refl o), Vec.get_set_self _ _ _ (by omega)]
        rw [hym, hv]
        congr 1
        refine congrArg (b.get o - ·) ?_
        refine Finset.sum_congr rfl (fun i hi => ?_)
        have hio : o + 1 ≤ i := (Finset.mem_Ico.mp hi).1
        rw [hy4 i (by omega), Vec.get_set_ne _ _ _ _ (by omega)]

/-- Back substitution (part_006 loop) fails with the `tooSmall` error naming
a diagonal index whose entry is smaller than `eps` in magnitude, whenever
such an index exists in the loop range. -/
theorem backSub_err (A : Mat α) (b : Vec α) :
    ∀ (m : Nat) (x : Vec α), x.data.length = A.ins → m ≤ A.ins →
    (∃ o, o < m ∧ |A.get o o| < eps) →
    ∃ o0, o0 < m ∧ |A.get o0 o0| < eps ∧
      ((List.range m).reverse).foldlM (backSubStep A b) x =
        .error (.tooSmall o0 (A.get o0 o0)) := by
  intro m
  induction m with
  | zero =>
    intro x _ _ h
    obtain ⟨o, ho, _⟩ := h
    exact absurd ho (Nat.not_lt_zero o)
  | succ m ih =>
    intro x hx hm h
    rw [range_succ_reverse, List.foldlM_cons]
    by_cases hsmall : |A.get m m| < eps
    · refine ⟨m, Nat.lt_succ_self m, hsmall, ?_⟩
      have hstep : backSubStep A b x m = .error (.tooSmall m (A.get m m)) := by
        unfold backSubStep
        rw [if_pos hsmall]
      rw [hstep]
      rfl
    · have hstep : backSubStep A b x m =
          .ok (x.set m ((b.get m - ∑ i in Finset.Ico (m + 1) A.ins,
            x.get i * A.get i m) / A.get m m)) := by
        unfold backSubStep
        rw [if_neg hsmall]
      rw [hstep]
      obtain ⟨o, ho, hos⟩ := h
      have ho' : o < m := by
        rcases Nat.lt_succ_iff_lt_or_eq.mp ho with h1 | h1
        · exact h1
        · subst h1; exact absurd hos hsmall
      obtain ⟨o0, h1, h2, h3⟩ := ih
        (x.set m ((b.get m - ∑ i in Finset.Ico (m + 1) A.ins,
          x.get i * A.get i m) / A.get m m))
        (by rw [Vec.length_set]; exact hx)
        (Nat.le_of_succ_le hm) ⟨o, ho', hos⟩
      refine ⟨o0, Nat.lt_succ_of_lt h1, h2, ?_⟩
      simpa using h3

end Linear

namespace Linear

variable {α : Type} [LinearOrderedField α]

/-- When the three shape checks pass, the part_006 solver is the
triangularity scan followed by the back-substitution loop. -/
theorem findInto_checks (A : Mat α) (b x : Vec α) (h1 : ¬ A.outs < A.ins)
    (h2 : b.dim = A.outs) (h3 : x.dim = A.ins) :
    FindInputToUpperTriangularInto A b x =
      match firstLowerNonzero A with
      | some p => .error (.notUpperTriangular p.1 p.2 (A.get p.1 p.2))
      | none => ((List.range A.ins).reverse).foldlM (backSubStep A b) x := by
  unfold FindInputToUpperTriangularInto
  rw [if_neg h1, if_neg (by simp [h2]), if_neg (by simp [h3])]

/-- Solver core: with valid shapes, an exactly upper-triangular matrix and
all diagonal entries at least `eps` in magnitude, the part_006 solver
succeeds and its output satisfies the back-substitution recurrence. -/
theorem findInput_ok (A : Mat α) (b : Vec α) (h1 : A.ins ≤ A.outs)
    (h2 : b.dim = A.outs)
    (htri : ∀ i o, i < A.ins → i < o → o < A.outs → A.get i o = 0)
    (hdiag : ∀ o, o < A.ins → eps ≤ |A.get o o|) :
    ∃ x : Vec α, FindInputToUpperTriangular A b = .ok x ∧ x.dim = A.ins ∧
      ∀ o, o < A.ins → x.get o =
        (b.get o - ∑ i in Finset.Ico (o + 1) A.ins, x.get i * A.get i o) / A.get o o := by
  have hnone : firstLowerNonzero A = none := (firstLowerNonzero_eq_none_iff A).mpr htri
  obtain ⟨y, hy1, _, hy3, _, hy5⟩ := backSub_ok A b A.ins (NewArrayVector A.ins)
    (Nat.le_refl _) (NewArrayVector_length _) hdiag
  refine ⟨y, ?_, ?_, hy5⟩
  · rw [FindInputToUpperTriangular, findInto_checks A b _ (not_lt.mpr h1) h2 rfl, hnone]
    exact hy1
  · rw [hy3, NewArrayVector_dim]

/-- Solver core: with valid shapes and an upper-triangular matrix, if some
diagonal entry is smaller than `eps` in magnitude the part_006 solver fails
with `tooSmall` naming such an index. -/
theorem findInput_err (A : Mat α) (b : Vec α) (h1 : A.ins ≤ A.outs)
    (h2 : b.dim = A.outs)
    (htri : ∀ i o, i < A.ins → i < o → o < A.outs → A.get i o = 0)
    (hsmall : ∃ o, o < A.ins ∧ |A.get o o| < eps) :
    ∃ o0, o0 < A.ins ∧ |A.get o0 o0| < eps ∧
      FindInputToUpperTriangular A b = .error (.tooSmall o0 (A.get o0 o0)) := by
  have hnone : firstLowerNonzero A = none := (firstLowerNonzero_eq_none_iff A).mpr htri
  obtain ⟨o0, ho1, ho2, ho3⟩ := backSub_err A b A.ins (NewArrayVector A.ins)
    (NewArrayVector_length _) (Nat.le_refl _) hsmall
  refine ⟨o0, ho1, ho2, ?_⟩
  rw [FindInputToUpperTriangular, findInto_checks A b _ (not_lt.mpr h1) h2 rfl, hnone]
  exact ho3

end Linear

namespace Linear

/-- C5: for every ins×outs upper-triangular `A` with `outs >= ins` whose
diagonal entries all have magnitude at least `1e-9`, and every `b` of
dimension `outs`, `FindInputToUpperTriangular` returns a vector `x` of
dimension `ins` satisfying the back-substitution recurrence
`x(o) = (b(o) − Σ_{i=o+1}^{ins-1} x(i)·A(i,o)) / A(o,o)`; and on the spec's
example (`A` with columns `(1,0,0),(2,4,0),(3,5,6)`, `b = (1,2,3)`) the
result is exactly `(-0.25, -0.125, 0.5)`. -/
theorem c5_backSubstitution :
    (∀ (β : Type) [LinearOrderedField β], ∀ (A : Mat β) (b : Vec β),
      A.ins ≤ A.outs → b.dim = A.outs →
      (∀ i ∈ Finset.range A.ins, ∀ o ∈ Finset.range A.outs, i < o → A.get i o = 0) →
      (∀ o ∈ Finset.range A.ins, eps ≤ |A.get o o|) →
      ∃ x : Vec β, FindInputToUpperTriangular A b = .ok x ∧ x.dim = A.ins ∧
        ∀ o, o < A.ins → x.get o =
          (b.get o - ∑ i in Finset.Ico (o + 1) A.ins, x.get i * A.get i o) / A.get o o) ∧
    FindInputToUpperTriangular (⟨3, 3, [1, 2, 3, 0, 4, 5, 0, 0, 6]⟩ : Mat ℚ)
      ⟨3, [1, 2, 3]⟩ = .ok ⟨3, [-(1 : ℚ)/4, -1/8, 1/2]⟩ := by
  constructor
  · intro β instβ A b h1 h2 htri hdiag
    exact findInput_ok A b h1 h2
      (fun i o hi hio ho => htri i (Finset.mem_range.mpr hi) o (Finset.mem_range.mpr ho) hio)
      (fun o ho => hdiag o (Finset.mem_range.mpr ho))
  · with_unfolding_all decide

/-- C5 witness: the generic statement applied to the spec's concrete
3×3 system. -/
theorem c5_backSubstitution_witness :
    ((⟨3, 3, [1, 2, 3, 0, 4, 5, 0, 0, 6]⟩ : Mat ℚ).ins ≤
        (⟨3, 3, [1, 2, 3, 0, 4, 5, 0, 0, 6]⟩ : Mat ℚ).outs ∧
      (⟨3, [1, 2, 3]⟩ : Vec ℚ).dim = 3 ∧
      (∀ i ∈ Finset.range 3, ∀ o ∈ Finset.range 3, i < o →
        (⟨3, 3, [1, 2, 3, 0, 4, 5, 0, 0, 6]⟩ : Mat ℚ).get i o = 0) ∧
      (∀ o ∈ Finset.range 3, eps ≤ |(⟨3, 3, [1, 2, 3, 0, 4, 5, 0, 0, 6]⟩ : Mat ℚ).get o o|)) ∧
    (∃ x : Vec ℚ,
      FindInputToUpperTriangular (⟨3, 3, [1, 2, 3, 0, 4, 5, 0, 0, 6]⟩ : Mat ℚ)
        ⟨3, [1, 2, 3]⟩ = .ok x ∧ x.dim = 3 ∧
      ∀ o, o < 3 → x.get o =
        ((⟨3, [1, 2, 3]⟩ : Vec ℚ).get o -
          ∑ i in Finset.Ico (o + 1) 3,
            x.get i * (⟨3, 3, [1, 2, 3, 0, 4, 5, 0, 0, 6]⟩ : Mat ℚ).get i o) /
          (⟨3, 3, [1, 2, 3, 0, 4, 5, 0, 0, 6]⟩ : Mat ℚ).get o o) :=
  ⟨⟨by decide, by decide, by with_unfolding_all decide, by with_unfolding_all decide⟩,
    c5_backSubstitution.1 ℚ (⟨3, 3, [1, 2, 3, 0, 4, 5, 0, 0, 6]⟩ : Mat ℚ) ⟨3, [1, 2, 3]⟩
      (by decide) (by decide) (by with_unfolding_all decide) (by with_unfolding_all decide)⟩

end Linear

namespace Linear

/-- C2: for the part_006 solver (shape-valid, upper-triangular input), a
diagonal entry of magnitude below `1e-9` makes the solve fail with the
singular-matrix error naming an offending diagonal index (never returning a
numeric result), and when every diagonal entry has magnitude at least `1e-9`
no such error is raised.  The claim FAILS for `SolveUpperTriangular`
(linear.go), whose guard `denom < 1e-9` omits `math.Abs`: on the
1×1 system `A = [[-1]]`, `b = (1)` (diagonal magnitude `1 ≥ 1e-9`) it
reports the singular-matrix error, while the part_006 solver returns
`(-1)`. -/
theorem c2_singularGuard :
    (∀ (β : Type) [LinearOrderedField β], ∀ (A : Mat β) (b : Vec β),
      A.ins ≤ A.outs → b.dim = A.outs →
      (∀ i ∈ Finset.range A.ins, ∀ o ∈ Finset.range A.outs, i < o → A.get i o = 0) →
      ((∃ o ∈ Finset.range A.ins, |A.get o o| < eps) →
        ∃ o0, o0 < A.ins ∧ |A.get o0 o0| < eps ∧
          FindInputToUpperTriangular A b = .error (.tooSmall o0 (A.get o0 o0))) ∧
      ((∀ o ∈ Finset.range A.ins, eps ≤ |A.get o o|) →
        ∃ x, FindInputToUpperTriangular A b = .ok x)) ∧
    (eps ≤ |(-1 : ℚ)| ∧
      SolveUpperTriangular (⟨1, 1, [-1]⟩ : Mat ℚ) ⟨1, [1]⟩ =
        .error (.tooSmall 0 (-1)) ∧
      FindInputToUpperTriangular (⟨1, 1, [-1]⟩ : Mat ℚ) ⟨1, [1]⟩ =
        .ok ⟨1, [-1]⟩) := by
  constructor
  · intro β instβ A b h1 h2 htri
    have htri' : ∀ i o, i < A.ins → i < o → o < A.outs → A.get i o = 0 :=
      fun i o hi hio ho => htri i (Finset.mem_range.mpr hi) o (Finset.mem_range.mpr ho) hio
    constructor
    · intro hsmall
      obtain ⟨o, ho, hos⟩ := hsmall
      exact findInput_err A b h1 h2 htri' ⟨o, Finset.mem_range.mp ho, hos⟩
    · intro hdiag
      obtain ⟨x, hx, _, _⟩ := findInput_ok A b h1 h2 htri'
        (fun o ho => hdiag o (Finset.mem_range.mpr ho))
      exact ⟨x, hx⟩
  · refine ⟨?_, ?_, ?_⟩ <;> with_unfolding_all decide

/-- C2 witness: the generic statement applied to the concrete 1×1 system
`A = [[-1]]`, `b = (1)`. -/
theorem c2_singularGuard_witness :
    ((⟨1, 1, [-1]⟩ : Mat ℚ).ins ≤ (⟨1, 1, [-1]⟩ : Mat ℚ).outs ∧
      (⟨1, [1]⟩ : Vec ℚ).dim = 1 ∧
      (∀ i ∈ Finset.range 1, ∀ o ∈ Finset.range 1, i < o →
        (⟨1, 1, [-1]⟩ : Mat ℚ).get i o = 0) ∧
      (∀ o ∈ Finset.range 1, eps ≤ |(⟨1, 1, [-1]⟩ : Mat ℚ).get o o|)) ∧
    ((∃ o ∈ Finset.range 1, |(⟨1, 1, [-1]⟩ : Mat ℚ).get o o| < eps) →
      ∃ o0, o0 < 1 ∧ |(⟨1, 1, [-1]⟩ : Mat ℚ).get o0 o0| < eps ∧
        FindInputToUpperTriangular (⟨1, 1, [-1]⟩ : Mat ℚ) ⟨1, [1]⟩ =
          .error (.tooSmall o0 ((⟨1, 1, [-1]⟩ : Mat ℚ).get o0 o0))) ∧
    ((∀ o ∈ Finset.range 1, eps ≤ |(⟨1, 1, [-1]⟩ : Mat ℚ).get o o|) →
      ∃ x, FindInputToUpperTriangular (⟨1, 1, [-1]⟩ : Mat ℚ) ⟨1, [1]⟩ = .ok x) := by
  refine ⟨⟨by decide, by decide, by with_unfolding_all decide, by with_unfolding_all decide⟩, ?_⟩
  exact c2_singularGuard.1 ℚ (⟨1, 1, [-1]⟩ : Mat ℚ) ⟨1, [1]⟩
    (by decide) (by decide) (by with_unfolding_all decide)

end Linear

namespace Linear

/-- C4: the part_006 solver checks its preconditions before computing: a
below-diagonal nonzero entry (with valid shapes) yields the
`notUpperTriangular` error identifying a nonzero below-diagonal entry;
`outs < ins` and a `b`-dimension mismatch fail with the corresponding shape
errors.  The claim FAILS for the part_005 variant
`FindInputUpperTriangularInto`, which performs no triangularity scan (and
whose helper `CheckUpperTriangular` in matrix.go has an empty body): on the
non-upper-triangular `A = [[1,2],[5,3]]` (entry `(0,1) = 5` below the
diagonal), `b = (1,1)`, it silently back-substitutes and returns
`(1/3, 1/3)`, where the part_006 solver fails with
`notUpperTriangular(0, 1, 5)`. -/
theorem c4_preconditionChecks :
    (∀ (β : Type) [LinearOrderedField β], ∀ (A : Mat β) (b x : Vec β),
      (A.ins ≤ A.outs → b.dim = A.outs → x.dim = A.ins →
        (∃ i ∈ Finset.range A.ins, ∃ o ∈ Finset.range A.outs, i < o ∧ A.get i o ≠ 0) →
        ∃ i0 o0, i0 < A.ins ∧ i0 < o0 ∧ o0 < A.outs ∧ A.get i0 o0 ≠ 0 ∧
          FindInputToUpperTriangularInto A b x =
            .error (.notUpperTriangular i0 o0 (A.get i0 o0))) ∧
      (A.outs < A.ins →
        FindInputToUpperTriangularInto A b x = .error (.outsLessThanIns A.outs A.ins)) ∧
      (¬ A.outs < A.ins → b.dim ≠ A.outs →
        FindInputToUpperTriangularInto A b x = .error (.dimMismatch b.dim A.outs))) ∧
    (FindInputToUpperTriangularInto (⟨2, 2, [1, 2, 5, 3]⟩ : Mat ℚ) ⟨2, [1, 1]⟩
        (NewArrayVector 2) = .error (.notUpperTriangular 0 1 5) ∧
      FindInputUpperTriangularInto (⟨2, 2, [1, 2, 5, 3]⟩ : Mat ℚ) ⟨2, [1, 1]⟩
        (NewArrayVector 2) = .ok ⟨2, [(1 : ℚ)/3, 1/3]⟩) := by
  constructor
  · intro β instβ A b x
    refine ⟨?_, ?_, ?_⟩
    · intro h1 h2 h3 hnz
      rcases hfln : firstLowerNonzero A with _ | p
      · obtain ⟨i, hi, o, ho, hio, hval⟩ := hnz
        exact absurd ((firstLowerNonzero_eq_none_iff A).mp hfln i o
          (Finset.mem_range.mp hi) hio (Finset.mem_range.mp ho)) hval
      · obtain ⟨hp1, hp2, hp3, hp4⟩ := firstLowerNonzero_some A p hfln
        refine ⟨p.1, p.2, hp1, hp2, hp3, hp4, ?_⟩
        rw [findInto_checks A b x (not_lt.mpr h1) h2 h3, hfln]
    · intro h
      unfold FindInputToUpperTriangularInto
      rw [if_pos h]
    · intro h1 h2
      unfold FindInputToUpperTriangularInto
      rw [if_neg h1, if_pos h2]
  · exact ⟨by with_unfolding_all decide, by with_unfolding_all decide⟩

/-- C4 witness: the generic statement applied to the concrete
non-upper-triangular system `A = [[1,2],[5,3]]`, `b = (1,1)`. -/
theorem c4_preconditionChecks_witness :
    ((⟨2, 2, [1, 2, 5, 3]⟩ : Mat ℚ).ins ≤ (⟨2, 2, [1, 2, 5, 3]⟩ : Mat ℚ).outs ∧
      (⟨2, [1, 1]⟩ : Vec ℚ).dim = 2 ∧ (NewArrayVector 2 : Vec ℚ).dim = 2 ∧
      (∃ i ∈ Finset.range 2, ∃ o ∈ Finset.range 2, i < o ∧
        (⟨2, 2, [1, 2, 5, 3]⟩ : Mat ℚ).get i o ≠ 0)) ∧
    (∃ i0 o0, i0 < 2 ∧ i0 < o0 ∧ o0 < 2 ∧
      (⟨2, 2, [1, 2, 5, 3]⟩ : Mat ℚ).get i0 o0 ≠ 0 ∧
      FindInputToUpperTriangularInto (⟨2, 2, [1, 2, 5, 3]⟩ : Mat ℚ) ⟨2, [1, 1]⟩
        (NewArrayVector 2) =
        .error (.notUpperTriangular i0 o0 ((⟨2, 2, [1, 2, 5, 3]⟩ : Mat ℚ).get i0 o0))) := by
  refine ⟨⟨by decide, by decide, by decide, by with_unfolding_all decide⟩, ?_⟩
  exact (c4_preconditionChecks.1 ℚ (⟨2, 2, [1, 2, 5, 3]⟩ : Mat ℚ) ⟨2, [1, 1]⟩
    (NewArrayVector 2)).1 (by decide) (by decide) (by decide)
    (by with_unfolding_all decide)

end Linear

namespace Linear

/-- C9: `Dual(A)` has shape `(outs, ins)`, entry `(i, o)` of the dual equals
entry `(o, i)` of `A`, and applying `Dual` twice restores `A` entrywise. -/
theorem c9_dualTranspose :
    ∀ (β : Type) [LinearOrderedField β], ∀ (A : Mat β) (i o : Nat),
      (Dual A).ins = A.outs ∧ (Dual A).outs = A.ins ∧
      (i < A.outs → o < A.ins → (Dual A).get i o = A.get o i) ∧
      (i < A.ins → o < A.outs → (Dual (Dual A)).get i o = A.get i o) := by
  intro β instβ A i o
  refine ⟨rfl, rfl, fun hi ho => Dual_get A i o hi ho, fun hi ho => ?_⟩
  rw [show (Dual (Dual A)).get i o = (Dual A).get o i from
    Dual_get (Dual A) i o (by simpa [Dual] using hi) (by simpa [Dual] using ho)]
  exact Dual_get A o i ho hi

/-- C9 witness: the dual of the concrete 2×3 matrix with columns
`(1,3,5)` and `(2,4,6)`. -/
theorem c9_dualTranspose_witness :
    (Dual (⟨2, 3, [1, 2, 3, 4, 5, 6]⟩ : Mat ℚ)).ins = 3 ∧
    (Dual (⟨2, 3, [1, 2, 3, 4, 5, 6]⟩ : Mat ℚ)).outs = 2 ∧
    (Dual (⟨2, 3, [1, 2, 3, 4, 5, 6]⟩ : Mat ℚ)).get 1 1 =
      (⟨2, 3, [1, 2, 3, 4, 5, 6]⟩ : Mat ℚ).get 1 1 ∧
    (Dual (Dual (⟨2, 3, [1, 2, 3, 4, 5, 6]⟩ : Mat ℚ))).get 1 2 =
      (⟨2, 3, [1, 2, 3, 4, 5, 6]⟩ : Mat ℚ).get 1 2 :=
  ⟨(c9_dualTranspose ℚ (⟨2, 3, [1, 2, 3, 4, 5, 6]⟩ : Mat ℚ) 1 1).1,
    (c9_dualTranspose ℚ (⟨2, 3, [1, 2, 3, 4, 5, 6]⟩ : Mat ℚ) 1 1).2.1,
    (c9_dualTranspose ℚ (⟨2, 3, [1, 2, 3, 4, 5, 6]⟩ : Mat ℚ) 1 1).2.2.1
      (by decide) (by decide),
    (c9_dualTranspose ℚ (⟨2, 3, [1, 2, 3, 4, 5, 6]⟩ : Mat ℚ) 1 2).2.2.2
      (by decide) (by decide)⟩

/-- C3 counterexample: out-of-range indices that do NOT fail.  On the slice
view `Slice(A, 0, 2, 0, 2)` of a dense 3×3 parent, `Get(2, 0)` has
`in == ins == 2` (outside `[0, 2)`), yet `checkBounds` (which uses `>`
rather than `>=`) lets it through to the parent's storage and the read
returns the parent entry `3`; on a dense 2×3 `arrayMatrix`, `Get(2, 0)` has
`in == 2` outside `[0, 2)`, yet the flat index `0*2+2 = 2` is within the
backing array, so the read succeeds (returning the entry stored for
`(0, 1)`).  The claim says both must fail with an out-of-bounds error. -/
theorem c3_boundsCheck_counterexample :
    sliceMatrixGet (⟨3, 3, [1, 2, 3, 4, 5, 6, 7, 8, 9]⟩ : Mat ℚ) 0 2 0 2 2 0 =
      .ok 3 ∧
    arrayMatrixGet (⟨2, 3, [1, 2, 3, 4, 5, 6]⟩ : Mat ℚ) 2 0 = .ok 3 := by
  exact ⟨by with_unfolding_all decide, by with_unfolding_all decide⟩

/-- C3 amended: the bounds behavior the code actually has.  A dense
`arrayMatrix` `Get`/`Set` succeeds exactly when the flattened index
`out*ins + in` lies within the backing array; a slice view's `checkBounds`
rejects exactly `in < 0`, `in > inHi-inLo`, `out < 0`, `out > outHi-outLo`
(an inclusive upper bound, so `in == ins` or `out == outs` passes, checked
against the sliced shape), after which the translated index is subject only
to the parent's flat check; in particular `in == ins` reaches the parent's
storage. -/
theorem c3_boundsCheck_amended :
    ∀ (β : Type) [LinearOrderedField β], ∀ (A : Mat β) (inLo inHi outLo outHi : Nat)
      (i o : Int) (v : β),
      ((∃ w, arrayMatrixGet A i o = .ok w) ↔
        0 ≤ o * A.ins + i ∧ o * A.ins + i < A.data.length) ∧
      ((∃ B, arrayMatrixSet A i o v = .ok B) ↔
        0 ≤ o * A.ins + i ∧ o * A.ins + i < A.data.length) ∧
      ((∃ w, sliceMatrixGet A inLo inHi outLo outHi i o = .ok w) ↔
        (0 ≤ i ∧ i ≤ (inHi : Int) - inLo ∧ 0 ≤ o ∧ o ≤ (outHi : Int) - outLo ∧
          0 ≤ (outLo + o) * A.ins + (inLo + i) ∧
          (outLo + o) * A.ins + (inLo + i) < A.data.length)) ∧
      (¬ sliceCheckFails inLo inHi outLo outHi i o →
        sliceMatrixGet A inLo inHi outLo outHi i o =
          arrayMatrixGet A (inLo + i) (outLo + o) ∧
        sliceMatrixSet A inLo inHi outLo outHi i o v =
          arrayMatrixSet A (inLo + i) (outLo + o) v) := by
  intro β instβ A inLo inHi outLo outHi i o v
  refine ⟨?_, ?_, ?_, ?_⟩
  · by_cases hc : 0 ≤ o * A.ins + i ∧ o * A.ins + i < (A.data.length : Int) <;>
      simp [arrayMatrixGet, hc]
  · by_cases hc : 0 ≤ o * A.ins + i ∧ o * A.ins + i < (A.data.length : Int) <;>
      simp [arrayMatrixSet, hc]
  · by_cases hf : sliceCheckFails inLo inHi outLo outHi i o
    · simp only [sliceMatrixGet, if_pos hf]
      unfold sliceCheckFails at hf
      constructor
      · rintro ⟨w, hw⟩
        exact Except.noConfusion hw
      · rintro ⟨h1, h2, h3, h4, _, _⟩
        omega
    · simp only [sliceMatrixGet, if_neg hf]
      unfold sliceCheckFails at hf
      push_neg at hf
      obtain ⟨h1, h2, h3, h4⟩ := hf
      by_cases hc : 0 ≤ (outLo + o) * A.ins + (inLo + i) ∧
          (outLo + o) * A.ins + (inLo + i) < (A.data.length : Int) <;>
        simp [arrayMatrixGet, hc] <;> omega
  · intro hf
    exact ⟨by simp [sliceMatrixGet, if_neg hf], by simp [sliceMatrixSet, if_neg hf]⟩

end Linear

namespace Linear

/-- C3 witness: the amended characterization applied at the slice view of
the concrete 3×3 parent with `in = ins = 2` (which passes the check and
reaches the parent). -/
theorem c3_boundsCheck_amended_witness :
    (¬ sliceCheckFails 0 2 0 2 2 0) ∧
    (sliceMatrixGet (⟨3, 3, [1, 2, 3, 4, 5, 6, 7, 8, 9]⟩ : Mat ℚ) 0 2 0 2 2 0 =
        arrayMatrixGet (⟨3, 3, [1, 2, 3, 4, 5, 6, 7, 8, 9]⟩ : Mat ℚ)
          ((0 : Nat) + (2 : Int)) ((0 : Nat) + (0 : Int)) ∧
      sliceMatrixSet (⟨3, 3, [1, 2, 3, 4, 5, 6, 7, 8, 9]⟩ : Mat ℚ) 0 2 0 2 2 0 42 =
        arrayMatrixSet (⟨3, 3, [1, 2, 3, 4, 5, 6, 7, 8, 9]⟩ : Mat ℚ)
          ((0 : Nat) + (2 : Int)) ((0 : Nat) + (0 : Int)) 42) :=
  ⟨by decide,
    (c3_boundsCheck_amended ℚ (⟨3, 3, [1, 2, 3, 4, 5, 6, 7, 8, 9]⟩ : Mat ℚ)
      0 2 0 2 2 0 42).2.2.2 (by decide)⟩

end Linear

namespace Linear

variable {α : Type} [LinearOrderedField α]

/-- C1: `OrdinaryLeastSquares(X, y)` is exactly
`FindInputToUpperTriangular(R, ApplyToVector(Dual(Q), y))` for
`(Q, R) = DecomposeQR(X)`. -/
theorem c1_olsPipeline :
    ∀ (β : Type) [LinearOrderedField β], ∀ (s : β → β) (X : Mat β) (y : Vec β)
      (Q R : Mat β) (b : Vec β),
      X.ins ≤ X.outs → y.dim = X.outs →
      DecomposeQR s X = .ok (Q, R) →
      ApplyToVector (Dual Q) y = .ok b →
      OrdinaryLeastSquares s X y = FindInputToUpperTriangular R b := by
  intro β instβ s X y Q R b _ _ hqr hb
  rw [OrdinaryLeastSquares, hqr]
  show (ApplyToVector (Dual Q) y) >>= (fun b => FindInputToUpperTriangular R b) = _
  rw [hb]
  rfl

/-- C1 witness: the pipeline identity on the concrete upper-triangular
system `X = [[1,1],[0,2]]`, `y = (6,0)` (where QR takes the skip path, so
the result is computable with any `sqrt`). -/
theorem c1_olsPipeline_witness :
    ((⟨2, 2, [1, 1, 0, 2]⟩ : Mat ℚ).ins ≤ (⟨2, 2, [1, 1, 0, 2]⟩ : Mat ℚ).outs ∧
      (⟨2, [6, 0]⟩ : Vec ℚ).dim = 2 ∧
      DecomposeQR (fun q => q) (⟨2, 2, [1, 1, 0, 2]⟩ : Mat ℚ) =
        .ok (⟨2, 2, [1, 0, 0, 1]⟩, ⟨2, 2, [1, 1, 0, 2]⟩) ∧
      ApplyToVector (Dual (⟨2, 2, [1, 0, 0, 1]⟩ : Mat ℚ)) ⟨2, [6, 0]⟩ =
        .ok ⟨2, [6, 0]⟩) ∧
    OrdinaryLeastSquares (fun q => q) (⟨2, 2, [1, 1, 0, 2]⟩ : Mat ℚ) ⟨2, [6, 0]⟩ =
      FindInputToUpperTriangular (⟨2, 2, [1, 1, 0, 2]⟩ : Mat ℚ) ⟨2, [6, 0]⟩ :=
  ⟨⟨by decide, by decide, by with_unfolding_all decide, by with_unfolding_all decide⟩,
    c1_olsPipeline ℚ (fun q => q) (⟨2, 2, [1, 1, 0, 2]⟩ : Mat ℚ) ⟨2, [6, 0]⟩
      (⟨2, 2, [1, 0, 0, 1]⟩ : Mat ℚ) (⟨2, 2, [1, 1, 0, 2]⟩ : Mat ℚ) ⟨2, [6, 0]⟩
      (by decide) (by decide) (by with_unfolding_all decide)
      (by with_unfolding_all decide)⟩

end Linear

namespace Linear

variable {α : Type} [LinearOrderedField α]

theorem Mat.ofFn_congr (ins outs : Nat) (f g : Nat → Nat → α)
    (h : ∀ i o, i < ins → o < outs → f i o = g i o) :
    Mat.ofFn ins outs f = Mat.ofFn ins outs g := by
  by_cases hins : ins = 0
  · subst hins
    simp [Mat.ofFn]
  · unfold Mat.ofFn
    congr 1
    refine List.map_congr_left (fun k hk => ?_)
    rw [List.mem_range] at hk
    have h1 : k % ins < ins := Nat.mod_lt _ (Nat.pos_of_ne_zero hins)
    have h2 : k / ins < outs := Nat.div_lt_of_lt_mul (Nat.mul_comm outs ins ▸ hk)
    exact h (k % ins) (k / ins) h1 h2

theorem qrStep_skip (s : α → α) (n : Nat) (state : Mat α × Mat α) (i : Nat)
    (h : IsZero (Slice state.2 i (i + 1) (i + 1) n) = true) :
    qrStep s n state i = .ok state := by
  simp [qrStep, h]

theorem foldlM_skip {σ ε : Type} (f : σ → Nat → Except ε σ) (state : σ) :
    ∀ l : List Nat, (∀ i ∈ l, f state i = .ok state) →
      l.foldlM f state = .ok state := by
  intro l
  induction l with
  | nil => intro _; rfl
  | cons a l ih =>
    intro h
    rw [List.foldlM_cons, h a (List.mem_cons_self a l)]
    exact ih (fun i hi => h i (List.mem_cons_of_mem a hi))

theorem CopyInto_ok (src dst : Mat α) (h1 : dst.ins = src.ins) (h2 : dst.outs = src.outs) :
    CopyInto src dst = .ok (Mat.ofFn dst.ins dst.outs src.get) := by
  unfold CopyInto
  rw [if_neg (by simp [h1, h2])]

end Linear

namespace Linear

/-- C7: a QR column whose sub-diagonal block is exactly zero is skipped with
the working pair unchanged; consequently, on a matrix whose entries strictly
below the diagonal are all exactly 0 (with `outs >= ins`), `DecomposeQR`
returns `Q` exactly equal to `Identity(outs)` and `R` equal to `A`
entrywise. -/
theorem c7_exactSkip :
    (∀ (β : Type) [LinearOrderedField β], ∀ (s : β → β) (n : Nat)
      (state : Mat β × Mat β) (i : Nat),
      IsZero (Slice state.2 i (i + 1) (i + 1) n) = true →
      qrStep s n state i = .ok state) ∧
    (∀ (β : Type) [LinearOrderedField β], ∀ (s : β → β) (A : Mat β),
      A.ins ≤ A.outs →
      (∀ i ∈ Finset.range A.ins, ∀ o ∈ Finset.range A.outs, i < o → A.get i o = 0) →
      ∃ Q R, DecomposeQR s A = .ok (Q, R) ∧ Q = Identity A.outs ∧
        R.ins = A.ins ∧ R.outs = A.outs ∧
        ∀ i o, i < A.ins → o < A.outs → R.get i o = A.get i o) := by
  constructor
  · intro β instβ s n state i h
    exact qrStep_skip s n state i h
  · intro β instβ s A hpn htri
    have htri' : ∀ i o, i < A.ins → i < o → o < A.outs → A.get i o = 0 :=
      fun i o hi hio ho => htri i (Finset.mem_range.mpr hi) o (Finset.mem_range.mpr ho) hio
    set T : Mat β := Slice A 0 A.ins 0 A.outs with hT
    have hTget : ∀ i o, i < A.ins → o < A.outs → T.get i o = A.get i o := by
      intro i o hi ho
      rw [hT, Slice_get A 0 A.ins 0 A.outs i o (by omega) (by omega),
        Nat.zero_add, Nat.zero_add]
    have hsub : ∀ i, i < A.ins →
        IsZero (Slice T i (i + 1) (i + 1) A.outs) = true := by
      intro i hi
      rw [IsZero_eq_true_iff]
      intro o' ho' i' hi'
      have h1 : i' < (i + 1) - i := hi'
      have h2 : o' < A.outs - (i + 1) := ho'
      rw [Slice_get T i (i + 1) (i + 1) A.outs i' o' h1 h2,
        hTget (i + i') (i + 1 + o') (by omega) (by omega)]
      exact htri' (i + i') (i + 1 + o') (by omega) (by omega) (by omega)
    have hfold : (List.range A.ins).foldlM (qrStep s A.outs)
        ((Identity A.outs : Mat β), T) = .ok ((Identity A.outs : Mat β), T) := by
      refine foldlM_skip _ _ _ (fun i hi => ?_)
      exact qrStep_skip s A.outs _ i (hsub i (List.mem_range.mp hi))
    refine ⟨Mat.ofFn A.outs A.outs (Identity A.outs : Mat β).get,
      Mat.ofFn A.ins A.outs T.get, ?_, ?_, rfl, rfl, ?_⟩
    · rw [DecomposeQR, DecomposeIntoQR]
      rw [if_neg (by simp [NewArrayMatrix]), if_neg (by simp [NewArrayMatrix])]
      show ((List.range A.ins).foldlM (qrStep s A.outs)
        ((Identity A.outs : Mat β), T)) >>= _ = _
      rw [hfold]
      show (CopyInto (Identity A.outs) (NewArrayMatrix A.outs A.outs)) >>=
        (fun Qres => (CopyInto T (NewArrayMatrix A.ins A.outs)) >>=
          (fun Rres => Except.ok (Qres, Rres))) = _
      rw [CopyInto_ok (Identity A.outs) (NewArrayMatrix A.outs A.outs) rfl rfl,
        CopyInto_ok T (NewArrayMatrix A.ins A.outs) rfl rfl]
      rfl
    · exact Mat.ofFn_congr A.outs A.outs _ _
        (fun i o hi ho => Identity_get A.outs i o hi ho)
    · intro i o hi ho
      rw [Mat.get_ofFn _ _ _ _ _ hi ho, hTget i o hi ho]

end Linear

namespace Linear

/-- C7 witness: the skip path on the concrete strictly upper-triangular
`X = [[1,1],[0,2]]`. -/
theorem c7_exactSkip_witness :
    ((⟨2, 2, [1, 1, 0, 2]⟩ : Mat ℚ).ins ≤ (⟨2, 2, [1, 1, 0, 2]⟩ : Mat ℚ).outs ∧
      (∀ i ∈ Finset.range 2, ∀ o ∈ Finset.range 2, i < o →
        (⟨2, 2, [1, 1, 0, 2]⟩ : Mat ℚ).get i o = 0)) ∧
    (∃ Q R, DecomposeQR (fun q => q) (⟨2, 2, [1, 1, 0, 2]⟩ : Mat ℚ) = .ok (Q, R) ∧
      Q = Identity 2 ∧ R.ins = 2 ∧ R.outs = 2 ∧
      ∀ i o, i < 2 → o < 2 → R.get i o = (⟨2, 2, [1, 1, 0, 2]⟩ : Mat ℚ).get i o) :=
  ⟨⟨by decide, by with_unfolding_all decide⟩,
    c7_exactSkip.2 ℚ (fun q => q) (⟨2, 2, [1, 1, 0, 2]⟩ : Mat ℚ)
      (by decide) (by with_unfolding_all decide)⟩

end Linear

namespace Linear

/-- C8: `Householder(x, e)` (for `x`, `e` of equal dimension, shifted vector
`u` nonzero) returns the matrix `H` with
`H(i,o) = [i==o] − 2·v(o)·v(i)` where `v = Normalize(u)` and
`u[d] = x[d] + sign·‖x‖₂·e[d]`, `sign = +1` iff `x[0] >= 0`; in particular
`H` is symmetric. -/
theorem c8_householderFormula :
    ∀ (β : Type) [LinearOrderedField β], ∀ (s : β → β) (x e : Vec β),
      e.dim = x.dim →
      (∃ d ∈ Finset.range x.dim,
        x.get d + (if x.get 0 < 0 then (-1 : β) else 1) * L2Norm s x * e.get d ≠ 0) →
      ∃ H, Householder s x e = .ok H ∧ H.ins = x.dim ∧ H.outs = x.dim ∧
        (∀ i o, i < x.dim → o < x.dim →
          H.get i o = (if i = o then (1 : β) else 0) -
            2 * (Normalize s (Vec.ofFn x.dim (fun d =>
                x.get d + (if x.get 0 < 0 then (-1 : β) else 1) * L2Norm s x * e.get d))).get o *
              (Normalize s (Vec.ofFn x.dim (fun d =>
                x.get d + (if x.get 0 < 0 then (-1 : β) else 1) * L2Norm s x * e.get d))).get i) ∧
        (∀ i o, i < x.dim → o < x.dim → H.get i o = H.get o i) := by
  intro β instβ s x e he _
  set v : Vec β := Normalize s (Vec.ofFn x.dim (fun d =>
    x.get d + (if x.get 0 < 0 then (-1 : β) else 1) * L2Norm s x * e.get d)) with hv
  have hH : Householder s x e = .ok (Mat.ofFn x.dim x.dim (fun i o =>
      (Mat.ofFn x.dim x.dim (fun i o => if i = o then (1 : β) else 0)).get i o -
        2 * v.get o * v.get i)) := by
    rw [Householder, HouseholderInto]
    rw [if_neg (show ¬ e.dim ≠ x.dim by simp [he])]
    rw [if_neg (show ¬ (Identity x.dim : Mat β).ins ≠ (Identity x.dim : Mat β).outs from
      fun hc => hc rfl)]
    rw [if_neg (show ¬ (Identity x.dim : Mat β).ins ≠ x.dim from fun hc => hc rfl)]
    rw [show IdentityInto (Identity x.dim : Mat β) =
        .ok (Mat.ofFn x.dim x.dim (fun i o => if i = o then (1 : β) else 0)) from by
      rw [IdentityInto, if_neg (show ¬ (Identity x.dim : Mat β).ins ≠
        (Identity x.dim : Mat β).outs from fun hc => hc rfl)]
      rfl]
    rfl
  have hfor : ∀ i o, i < x.dim → o < x.dim →
      (Mat.ofFn x.dim x.dim (fun i o =>
        (Mat.ofFn x.dim x.dim (fun i o => if i = o then (1 : β) else 0)).get i o -
          2 * v.get o * v.get i)).get i o =
      (if i = o then (1 : β) else 0) - 2 * v.get o * v.get i := by
    intro i o hi ho
    rw [Mat.get_ofFn _ _ _ i o hi ho, Mat.get_ofFn _ _ _ i o hi ho]
  refine ⟨_, hH, rfl, rfl, fun i o hi ho => hfor i o hi ho, fun i o hi ho => ?_⟩
  rw [hfor i o hi ho, hfor o i ho hi,
    show (if i = o then (1 : β) else 0) = (if o = i then (1 : β) else 0) by
      simp [eq_comm]]
  ring

/-- C8 witness: the Householder formula at the concrete pair `x = (3,4)`,
`e = (1,0)` (with the identity as the embedded `sqrt` stand-in). -/
theorem c8_householderFormula_witness :
    ((⟨2, [1, 0]⟩ : Vec ℚ).dim = (⟨2, [3, 4]⟩ : Vec ℚ).dim ∧
      (∃ d ∈ Finset.range (⟨2, [3, 4]⟩ : Vec ℚ).dim,
        (⟨2, [3, 4]⟩ : Vec ℚ).get d +
          (if (⟨2, [3, 4]⟩ : Vec ℚ).get 0 < 0 then (-1 : ℚ) else 1) *
            L2Norm (fun q => q) (⟨2, [3, 4]⟩ : Vec ℚ) * (⟨2, [1, 0]⟩ : Vec ℚ).get d ≠ 0)) ∧
    (∃ H, Householder (fun q => q) (⟨2, [3, 4]⟩ : Vec ℚ) ⟨2, [1, 0]⟩ = .ok H ∧
      H.ins = 2 ∧ H.outs = 2 ∧
      (∀ i o, i < 2 → o < 2 →
        H.get i o = (if i = o then (1 : ℚ) else 0) -
          2 * (Normalize (fun q => q) (Vec.ofFn 2 (fun d =>
              (⟨2, [3, 4]⟩ : Vec ℚ).get d +
                (if (⟨2, [3, 4]⟩ : Vec ℚ).get 0 < 0 then (-1 : ℚ) else 1) *
                  L2Norm (fun q => q) (⟨2, [3, 4]⟩ : Vec ℚ) *
                  (⟨2, [1, 0]⟩ : Vec ℚ).get d))).get o *
            (Normalize (fun q => q) (Vec.ofFn 2 (fun d =>
              (⟨2, [3, 4]⟩ : Vec ℚ).get d +
                (if (⟨2, [3, 4]⟩ : Vec ℚ).get 0 < 0 then (-1 : ℚ) else 1) *
                  L2Norm (fun q => q) (⟨2, [3, 4]⟩ : Vec ℚ) *
                  (⟨2, [1, 0]⟩ : Vec ℚ).get d))).get i) ∧
      (∀ i o, i < 2 → o < 2 → H.get i o = H.get o i)) :=
  ⟨⟨by decide, by with_unfolding_all decide⟩,
    c8_householderFormula ℚ (fun q => q) (⟨2, [3, 4]⟩ : Vec ℚ) ⟨2, [1, 0]⟩
      (by decide) (by with_unfolding_all decide)⟩

end Linear

namespace Linear

variable {α : Type} [LinearOrderedField α]

theorem eps_pos : (0 : α) < eps := by
  rw [eps]
  positivity

theorem sum_delta_right (n c : Nat) (f : Nat → α) (hc : c < n) :
    ∑ k in Finset.range n, f k * (if k = c then 1 else 0) = f c := by
  rw [Finset.sum_congr rfl (fun k _ => mul_ite (k = c) (f k) 1 0)]
  simp only [mul_one, mul_zero]
  rw [Finset.sum_ite_eq' (Finset.range n) c f]
  simp [hc]

theorem sum_delta_left (n c : Nat) (f : Nat → α) (hc : c < n) :
    ∑ k in Finset.range n, (if k = c then 1 else 0) * f k = f c := by
  have hcomm : ∀ k, (if k = c then (1 : α) else 0) * f k =
      f k * (if k = c then 1 else 0) := fun k => mul_comm _ _
  rw [Finset.sum_congr rfl (fun k _ => hcomm k), sum_delta_right n c f hc]

theorem IsZero_eq_false_iff (A : Mat α) :
    IsZero A = false ↔ ∃ o, o < A.outs ∧ ∃ i, i < A.ins ∧ A.get i o ≠ 0 := by
  rw [← Bool.not_eq_true, IsZero_eq_true_iff]
  push_neg
  constructor
  · rintro ⟨o, ho, i, hi, h⟩
    exact ⟨o, ho, i, hi, h⟩
  · rintro ⟨o, ho, i, hi, h⟩
    exact ⟨o, ho, i, hi, h⟩

theorem Compose_ok (A B : Mat α) (h : A.outs = B.ins) :
    Compose A B = .ok (Mat.ofFn A.ins B.outs
      (fun i o => ∑ k in Finset.range A.outs, A.get i k * B.get k o)) := by
  unfold Compose
  rw [if_neg (by simp [h])]

theorem VectorFromColumn_ok (A : Mat α) (h : A.ins = 1) :
    VectorFromColumn A = .ok (Vec.ofFn A.outs (fun d => A.get 0 d)) := by
  unfold VectorFromColumn
  rw [if_neg (by simp [h])]

theorem setBlock_get (H : Mat α) (inLo outLo : Nat) (B : Mat α) (a b : Nat)
    (ha : a < H.ins) (hb : b < H.outs) :
    (setBlock H inLo outLo B).get a b =
      if inLo ≤ a ∧ a < inLo + B.ins ∧ outLo ≤ b ∧ b < outLo + B.outs then
        B.get (a - inLo) (b - outLo)
      else H.get a b :=
  Mat.get_ofFn _ _ _ _ _ ha hb

/-- Evaluation of `HouseholderInto` when its three dimension checks pass:
the result is `I − 2·v·vᵗ` entrywise for `v = householderV x e`. -/
theorem HouseholderInto_eval (s : α → α) (x e : Vec α) (H : Mat α)
    (he : e.dim = x.dim) (h1 : H.ins = H.outs) (h2 : H.ins = x.dim) :
    HouseholderInto s x e H = .ok (Mat.ofFn x.dim x.dim (fun a b =>
      (if a = b then (1 : α) else 0) -
        2 * (householderV s x e).get b * (householderV s x e).get a)) := by
  rw [HouseholderInto]
  rw [if_neg (show ¬ e.dim ≠ x.dim by simp [he])]
  rw [if_neg (show ¬ H.ins ≠ H.outs by simp [h1])]
  rw [if_neg (show ¬ H.ins ≠ x.dim by simp [h2])]
  rw [show IdentityInto H =
      .ok (Mat.ofFn H.ins H.outs (fun i o => if i = o then (1 : α) else 0)) from by
    rw [IdentityInto, if_neg (show ¬ H.ins ≠ H.outs by simp [h1])]]
  show Except.ok _ = Except.ok _
  refine congrArg Except.ok ?_
  refine Mat.ofFn_congr _ _ _ _ (fun a b ha hb => ?_)
  rw [householderV]
  rw [Mat.get_ofFn _ _ _ a b (by omega) (by omega)]

end Linear

namespace Linear

variable {α : Type} [LinearOrderedField α]

/-- Orthonormality of the reflection `I − 2·v·vᵗ` for a unit vector `v`. -/
theorem reflect_orth (v : Vec α) (m : Nat)
    (hv1 : ∑ d in Finset.range m, v.get d * v.get d = 1) (a b : Nat)
    (ha : a < m) (hb : b < m) :
    ∑ k in Finset.range m,
      ((if k = a then (1 : α) else 0) - 2 * v.get a * v.get k) *
        ((if k = b then (1 : α) else 0) - 2 * v.get b * v.get k) =
      (if a = b then 1 else 0) := by
  have hexp : ∀ k, ((if k = a then (1 : α) else 0) - 2 * v.get a * v.get k) *
      ((if k = b then (1 : α) else 0) - 2 * v.get b * v.get k) =
        (if k = a then (1 : α) else 0) * (if k = b then 1 else 0) -
          (2 * v.get b) * ((if k = a then 1 else 0) * v.get k) -
          ((2 * v.get a) * ((if k = b then 1 else 0) * v.get k) -
            (4 * (v.get a * v.get b)) * (v.get k * v.get k)) := fun k => by ring
  rw [Finset.sum_congr rfl (fun k _ => hexp k), Finset.sum_sub_distrib,
    Finset.sum_sub_distrib, Finset.sum_sub_distrib, ← Finset.mul_sum,
    ← Finset.mul_sum, ← Finset.mul_sum, hv1]
  have h1 : ∑ k in Finset.range m,
      (if k = a then (1 : α) else 0) * (if k = b then 1 else 0) =
        (if a = b then (1 : α) else 0) :=
    sum_delta_left m a (fun k => if k = b then (1 : α) else 0) ha
  have h2 : ∑ k in Finset.range m, (if k = a then (1 : α) else 0) * v.get k = v.get a :=
    sum_delta_left m a v.get ha
  have h3 : ∑ k in Finset.range m, (if k = b then (1 : α) else 0) * v.get k = v.get b :=
    sum_delta_left m b v.get hb
  rw [h1, h2, h3]
  ring

/-- Scalar core of the Householder construction: for `x` of dimension `m`
whose sub-diagonal block (entries `1..m-1`) is not all zero, the vector
`v = householderV x e₀` has unit sum of squares, and the reflection maps `x`
to a multiple of `e₀`: `2·v(b)·(Σ_j v(j)·x(j)) = x(b)` for `1 <= b < m`. -/
theorem householder_core (s : α → α) (hs : ∀ a : α, 0 ≤ a → s a * s a = a)
    (x : Vec α) (m : Nat) (hxd : x.dim = m) (hm : 1 ≤ m)
    (hnz : ∃ j, 1 ≤ j ∧ j < m ∧ x.get j ≠ 0) :
    (∑ d in Finset.range m,
      (householderV s x (BasisVector m 0)).get d *
        (householderV s x (BasisVector m 0)).get d = 1) ∧
    (∀ b, 1 ≤ b → b < m →
      2 * (householderV s x (BasisVector m 0)).get b *
        (∑ j in Finset.range m,
          (householderV s x (BasisVector m 0)).get j * x.get j) = x.get b) := by
  set e : Vec α := BasisVector m 0 with he
  set sign : α := if x.get 0 < 0 then -1 else 1 with hsign
  have hsign2 : sign * sign = 1 := by
    rw [hsign]
    by_cases h : x.get 0 < 0 <;> simp [h]
  set M : α := ∑ d in Finset.range m, x.get d * x.get d with hM
  have hMnonneg : 0 ≤ M := Finset.sum_nonneg (fun d _ => mul_self_nonneg _)
  have hLL : L2Norm s x * L2Norm s x = M := by
    rw [L2Norm, hxd]
    exact hs M hMnonneg
  obtain ⟨j0, hj1, hj2, hj3⟩ := hnz
  have hsplit : M = x.get 0 * x.get 0 + ∑ d in Finset.Ico 1 m, x.get d * x.get d := by
    rw [hM, Finset.range_eq_Ico, Finset.sum_eq_sum_Ico_succ_bot hm]
  have hrest : x.get j0 * x.get j0 ≤ ∑ d in Finset.Ico 1 m, x.get d * x.get d := by
    exact Finset.single_le_sum (fun d _ => mul_self_nonneg (x.get d))
      (Finset.mem_Ico.mpr ⟨hj1, hj2⟩)
  have hx0M : x.get 0 * x.get 0 < M := by
    nlinarith [mul_self_pos.mpr hj3]
  have hMpos : 0 < M := lt_of_le_of_lt (mul_self_nonneg _) hx0M
  set t : α := sign * L2Norm s x * x.get 0 with ht
  have ht2 : t * t = M * (x.get 0 * x.get 0) := by
    have hexp : t * t = (sign * sign) * ((L2Norm s x * L2Norm s x) *
        (x.get 0 * x.get 0)) := by rw [ht]; ring
    rw [hexp, hsign2, hLL, one_mul]
  have hkey : 0 < M + t := by
    nlinarith [sq_nonneg (M + t), sq_nonneg (M - t)]
  set u : Vec α := Vec.ofFn x.dim (fun d =>
    x.get d + (if x.get 0 < 0 then (-1 : α) else 1) * L2Norm s x * e.get d) with hu
  have hudim : u.dim = m := by rw [hu, Vec.dim_ofFn, hxd]
  have huget : ∀ d, d < m → u.get d = x.get d + sign * L2Norm s x * e.get d := by
    intro d hd
    rw [hu, ← hsign, Vec.ofFn_get x.dim _ d (by omega)]
  have he0 : e.get 0 = 1 := by
    rw [he, BasisVector, Vec.ofFn_get m _ 0 (by omega)]
    simp
  have hed : ∀ d, 1 ≤ d → d < m → e.get d = 0 := by
    intro d h1 h2
    rw [he, BasisVector, Vec.ofFn_get m _ d h2, if_neg (by omega : ¬ d = 0)]
  have hu0 : u.get 0 = x.get 0 + sign * L2Norm s x := by
    rw [huget 0 (by omega), he0, mul_one]
  have hud : ∀ d, 1 ≤ d → d < m → u.get d = x.get d := by
    intro d h1 h2
    rw [huget d h2, hed d h1 h2, mul_zero, add_zero]
  set U : α := ∑ d in Finset.range m, u.get d * u.get d with hU
  have hUval : U = 2 * (M + t) := by
    rw [hU, Finset.range_eq_Ico, Finset.sum_eq_sum_Ico_succ_bot hm, hu0]
    rw [Finset.sum_congr rfl (fun d hd => by
      rw [hud d (Finset.mem_Ico.mp hd).1 (Finset.mem_Ico.mp hd).2])]
    have hrw : ∑ d in Finset.Ico 1 m, x.get d * x.get d = M - x.get 0 * x.get 0 := by
      rw [hsplit]; ring
    rw [hrw, ht]
    linear_combination (L2Norm s x * L2Norm s x) * hsign2 + hLL
  have hUpos : 0 < U := by rw [hUval]; linarith
  set su : α := L2Norm s u with hsu
  have hsusu : su * su = U := by
    rw [hsu, L2Norm, hudim]
    exact hs U (le_of_lt hUpos)
  have hsune : su ≠ 0 := by
    intro h
    rw [h, mul_zero] at hsusu
    exact absurd hsusu.symm (ne_of_gt hUpos)
  have hveq : householderV s x e = Normalize s u := by
    rw [householderV, hu, he]
  have hvget : ∀ d, d < m → (householderV s x e).get d = u.get d / su := by
    intro d hd
    rw [hveq, Normalize, hsu, Vec.ofFn_get u.dim _ d (by omega)]
  constructor
  · rw [Finset.sum_congr rfl (fun d hd => by
      rw [hvget d (Finset.mem_range.mp hd), div_mul_div_comm])]
    rw [← Finset.sum_div, hsusu, ← hU, div_self (ne_of_gt hUpos)]
  · intro b hb1 hb2
    have hsumux : ∑ d in Finset.range m, u.get d * x.get d = M + t := by
      rw [Finset.range_eq_Ico, Finset.sum_eq_sum_Ico_succ_bot hm, hu0]
      rw [Finset.sum_congr rfl (fun d hd => by
        rw [hud d (Finset.mem_Ico.mp hd).1 (Finset.mem_Ico.mp hd).2])]
      have hrw : ∑ d in Finset.Ico 1 m, x.get d * x.get d = M - x.get 0 * x.get 0 := by
        rw [hsplit]; ring
      rw [hrw, ht]
      ring
    have hsumvx : ∑ d in Finset.range m, (householderV s x e).get d * x.get d =
        (M + t) / su := by
      rw [Finset.sum_congr rfl (fun d hd => by
        rw [hvget d (Finset.mem_range.mp hd), div_mul_eq_mul_div])]
      rw [← Finset.sum_div, hsumux]
    rw [hsumvx, hvget b hb2, hud b hb1 hb2]
    field_simp
    linear_combination (-1 * x.get b) * hsusu + (-1 * x.get b) * hUval +
      (-2 * x.get b) * ht
end Linear

namespace Linear

variable {α : Type} [LinearOrderedField α]

theorem okBind {ε β γ : Type} (a : β) (f : β → Except ε γ) :
    (Except.ok a : Except ε β) >>= f = f a := rfl

theorem Vec.ofFn_ext (dim : Nat) (f g : Nat → α)
    (h : ∀ d, d < dim → f d = g d) : Vec.ofFn dim f = Vec.ofFn dim g := by
  unfold Vec.ofFn
  congr 1
  exact List.map_congr_left (fun d hd => h d (List.mem_range.mp hd))

/-- Exchange lemma for products of row sums: the `(H·X)·(H·Y)` pattern used
for both orthogonality and reconstruction in the QR loop invariant. -/
theorem sum_swap_prod (n1 n2 n3 : Nat) (f g : Nat → α) (P R : Nat → Nat → α) :
    ∑ k in Finset.range n3, (∑ c in Finset.range n1, f c * P c k) *
      (∑ d in Finset.range n2, g d * R d k) =
    ∑ c in Finset.range n1, ∑ d in Finset.range n2,
      (f c * g d) * (∑ k in Finset.range n3, P c k * R d k) := by
  rw [Finset.sum_congr rfl (fun k _ =>
    Finset.sum_mul_sum (Finset.range n1) (Finset.range n2)
      (fun c => f c * P c k) (fun d => g d * R d k))]
  rw [Finset.sum_comm]
  refine Finset.sum_congr rfl (fun c _ => ?_)
  rw [Finset.sum_comm]
  refine Finset.sum_congr rfl (fun d _ => ?_)
  rw [Finset.mul_sum]
  exact Finset.sum_congr rfl (fun k _ => by ring)

theorem sum_range_split (n i : Nat) (h : i ≤ n) (f : Nat → α) :
    ∑ k in Finset.range n, f k =
      (∑ k in Finset.range i, f k) + ∑ j in Finset.range (n - i), f (i + j) := by
  rw [← Finset.sum_range_add_sum_Ico f h, Finset.sum_Ico_eq_sum_range]

end Linear

namespace Linear

variable {α : Type} [LinearOrderedField α]

theorem delta_comm (a b : Nat) :
    (if a = b then (1 : α) else 0) = if b = a then 1 else 0 := by
  by_cases h : a = b
  · simp [h]
  · simp [h, Ne.symm h]

/-- Orthonormality and symmetry of the reflection block `I − 2·v·vᵗ`. -/
theorem block_orth (B : Mat α) (v : Vec α) (m : Nat)
    (hB : ∀ a b, a < m → b < m → B.get a b =
      (if a = b then (1 : α) else 0) - 2 * v.get b * v.get a)
    (hv1 : ∑ d in Finset.range m, v.get d * v.get d = 1) :
    (∀ a b, a < m → b < m →
      ∑ k in Finset.range m, B.get k a * B.get k b = (if a = b then 1 else 0)) ∧
    (∀ a b, a < m → b < m → B.get a b = B.get b a) := by
  constructor
  · intro a b ha hb
    rw [Finset.sum_congr rfl (fun k hk => by
      rw [hB k a (List.mem_range.mp (by simpa using hk)) ha,
        hB k b (List.mem_range.mp (by simpa using hk)) hb])]
    exact reflect_orth v m hv1 a b ha hb
  · intro a b ha hb
    rw [hB a b ha hb, hB b a hb ha, delta_comm]
    ring

/-- The reflection block sends the pivot column to a multiple of the first
basis vector: rows `1..m-1` of `B·x` vanish. -/
theorem block_zero (B : Mat α) (v x : Vec α) (m : Nat)
    (hB : ∀ a b, a < m → b < m → B.get a b =
      (if a = b then (1 : α) else 0) - 2 * v.get b * v.get a)
    (hz : ∀ b, 1 ≤ b → b < m →
      2 * v.get b * (∑ j in Finset.range m, v.get j * x.get j) = x.get b) :
    ∀ b, 1 ≤ b → b < m →
      ∑ j in Finset.range m, x.get j * B.get j b = 0 := by
  intro b hb1 hb2
  have hterm : ∀ j, j < m → x.get j * B.get j b =
      x.get j * (if j = b then 1 else 0) - (2 * v.get b) * (v.get j * x.get j) := by
    intro j hj
    rw [hB j b hj hb2]
    ring
  rw [Finset.sum_congr rfl (fun j hj => hterm j (Finset.mem_range.mp hj))]
  rw [Finset.sum_sub_distrib, sum_delta_right m b x.get hb2, ← Finset.mul_sum]
  linear_combination -1 * hz b hb1 hb2

end Linear

namespace Linear

variable {α : Type} [LinearOrderedField α]

/-- Properties of the reflection embedded in an identity:
`H = setBlock (Identity n) i i B` is the identity outside rows/columns
`i..n-1`, carries `B` inside, is symmetric, and has orthonormal columns and
rows whenever `B` does. -/
theorem embed_facts (B : Mat α) (i n : Nat) (hin : i ≤ n)
    (hBins : B.ins = n - i) (hBouts : B.outs = n - i)
    (hBsym : ∀ a b, a < n - i → b < n - i → B.get a b = B.get b a)
    (hBorth : ∀ a b, a < n - i → b < n - i →
      ∑ k in Finset.range (n - i), B.get k a * B.get k b = (if a = b then 1 else 0)) :
    (∀ a b, a < n → b < n → (setBlock (Identity n) i i B).get a b =
      if i ≤ a ∧ i ≤ b then B.get (a - i) (b - i) else (if a = b then 1 else 0)) ∧
    (∀ a b, a < n → b < n →
      (setBlock (Identity n) i i B).get a b = (setBlock (Identity n) i i B).get b a) ∧
    (∀ a b, a < n → b < n →
      ∑ k in Finset.range n, (setBlock (Identity n) i i B).get k a *
        (setBlock (Identity n) i i B).get k b = (if a = b then 1 else 0)) ∧
    (∀ a b, a < n → b < n →
      ∑ k in Finset.range n, (setBlock (Identity n) i i B).get a k *
        (setBlock (Identity n) i i B).get b k = (if a = b then 1 else 0)) := by
  set H : Mat α := setBlock (Identity n) i i B with hH
  have hHget : ∀ a b, a < n → b < n → H.get a b =
      if i ≤ a ∧ i ≤ b then B.get (a - i) (b - i) else (if a = b then 1 else 0) := by
    intro a b ha hb
    rw [hH, setBlock_get (Identity n) i i B a b
      (show a < (Identity n : Mat α).ins from ha)
      (show b < (Identity n : Mat α).outs from hb)]
    simp only [hBins, hBouts]
    by_cases hab : i ≤ a ∧ i ≤ b
    · rw [if_pos ⟨hab.1, by omega, hab.2, by omega⟩, if_pos hab]
    · rw [if_neg (fun hc => hab ⟨hc.1, hc.2.2.1⟩), if_neg hab]
      exact Identity_get n a b ha hb
  have hHsym : ∀ a b, a < n → b < n → H.get a b = H.get b a := by
    intro a b ha hb
    rw [hHget a b ha hb, hHget b a hb ha]
    by_cases hia : i ≤ a <;> by_cases hib : i ≤ b
    · rw [if_pos (show i ≤ a ∧ i ≤ b from ⟨hia, hib⟩),
        if_pos (show i ≤ b ∧ i ≤ a from ⟨hib, hia⟩)]
      exact hBsym (a - i) (b - i) (by omega) (by omega)
    · rw [if_neg (show ¬ (i ≤ a ∧ i ≤ b) from fun hc => hib hc.2),
        if_neg (show ¬ (i ≤ b ∧ i ≤ a) from fun hc => hib hc.1), delta_comm]
    · rw [if_neg (show ¬ (i ≤ a ∧ i ≤ b) from fun hc => hia hc.1),
        if_neg (show ¬ (i ≤ b ∧ i ≤ a) from fun hc => hia hc.2), delta_comm]
    · rw [if_neg (show ¬ (i ≤ a ∧ i ≤ b) from fun hc => hia hc.1),
        if_neg (show ¬ (i ≤ b ∧ i ≤ a) from fun hc => hia hc.2), delta_comm]
  have hHcol : ∀ a b, a < n → b < n →
      ∑ k in Finset.range n, H.get k a * H.get k b = (if a = b then 1 else 0) := by
    intro a b ha hb
    rw [sum_range_split n i hin]
    by_cases hia : i ≤ a <;> by_cases hib : i ≤ b
    · have h1 : ∑ k in Finset.range i, H.get k a * H.get k b = 0 := by
        refine Finset.sum_eq_zero (fun k hk => ?_)
        have hki : k < i := Finset.mem_range.mp hk
        rw [hHget k a (by omega) ha,
          if_neg (show ¬ (i ≤ k ∧ i ≤ a) from fun hc => by omega),
          if_neg (show ¬ k = a from by omega), zero_mul]
      have h2 : ∀ j, j < n - i →
          H.get (i + j) a * H.get (i + j) b = B.get j (a - i) * B.get j (b - i) := by
        intro j hj
        rw [hHget (i + j) a (by omega) ha, hHget (i + j) b (by omega) hb,
          if_pos (show i ≤ i + j ∧ i ≤ a from ⟨by omega, hia⟩),
          if_pos (show i ≤ i + j ∧ i ≤ b from ⟨by omega, hib⟩),
          show i + j - i = j from by omega]
      rw [h1, Finset.sum_congr rfl (fun j hj => h2 j (Finset.mem_range.mp hj)),
        hBorth (a - i) (b - i) (by omega) (by omega), zero_add]
      by_cases hab : a = b
      · rw [if_pos (show a - i = b - i from by omega), if_pos hab]
      · rw [if_neg (show ¬ a - i = b - i from by omega), if_neg hab]
    · have h1 : ∑ k in Finset.range i, H.get k a * H.get k b = 0 := by
        refine Finset.sum_eq_zero (fun k hk => ?_)
        have hki : k < i := Finset.mem_range.mp hk
        rw [hHget k a (by omega) ha,
          if_neg (show ¬ (i ≤ k ∧ i ≤ a) from fun hc => by omega),
          if_neg (show ¬ k = a from by omega), zero_mul]
      have h2 : ∑ j in Finset.range (n - i), H.get (i + j) a * H.get (i + j) b = 0 := by
        refine Finset.sum_eq_zero (fun j hj => ?_)
        have hjm : j < n - i := Finset.mem_range.mp hj
        rw [hHget (i + j) b (by omega) hb,
          if_neg (show ¬ (i ≤ i + j ∧ i ≤ b) from fun hc => hib hc.2),
          if_neg (show ¬ i + j = b from by omega), mul_zero]
      rw [h1, h2, zero_add, if_neg (show ¬ a = b from by omega)]
    · have h1 : ∑ k in Finset.range i, H.get k a * H.get k b = 0 := by
        refine Finset.sum_eq_zero (fun k hk => ?_)
        have hki : k < i := Finset.mem_range.mp hk
        rw [hHget k b (by omega) hb,
          if_neg (show ¬ (i ≤ k ∧ i ≤ b) from fun hc => by omega),
          if_neg (show ¬ k = b from by omega), mul_zero]
      have h2 : ∑ j in Finset.range (n - i), H.get (i + j) a * H.get (i + j) b = 0 := by
        refine Finset.sum_eq_zero (fun j hj => ?_)
        have hjm : j < n - i := Finset.mem_range.mp hj
        rw [hHget (i + j) a (by omega) ha,
          if_neg (show ¬ (i ≤ i + j ∧ i ≤ a) from fun hc => hia hc.2),
          if_neg (show ¬ i + j = a from by omega), zero_mul]
      rw [h1, h2, zero_add, if_neg (show ¬ a = b from by omega)]
    · have h1 : ∑ k in Finset.range i, H.get k a * H.get k b =
          (if a = b then 1 else 0) := by
        rw [Finset.sum_congr rfl (fun k hk => by
          have hki : k < i := Finset.mem_range.mp hk
          rw [hHget k a (by omega : k < n) ha, hHget k b (by omega : k < n) hb,
            if_neg (show ¬ (i ≤ k ∧ i ≤ a) from fun hc => hia hc.2),
            if_neg (show ¬ (i ≤ k ∧ i ≤ b) from fun hc => hib hc.2)])]
        exact sum_delta_left i a (fun k => if k = b then (1 : α) else 0) (by omega)
      have h2 : ∑ j in Finset.range (n - i), H.get (i + j) a * H.get (i + j) b = 0 := by
        refine Finset.sum_eq_zero (fun j hj => ?_)
        have hjm : j < n - i := Finset.mem_range.mp hj
        rw [hHget (i + j) a (by omega) ha,
          if_neg (show ¬ (i ≤ i + j ∧ i ≤ a) from fun hc => hia hc.2),
          if_neg (show ¬ i + j = a from by omega), zero_mul]
      rw [h1, h2, add_zero]
  refine ⟨hHget, hHsym, hHcol, fun a b ha hb => ?_⟩
  rw [Finset.sum_congr rfl (fun k hk => by
    rw [hHsym a k ha (Finset.mem_range.mp hk), hHsym b k hb (Finset.mem_range.mp hk)])]
  exact hHcol a b ha hb

end Linear

namespace Linear

variable {α : Type} [LinearOrderedField α]

/-- Reflect case of the QR column loop: when the sub-diagonal block of
column `i` is nonzero, the step succeeds and re-establishes the invariant
with column `i` zeroed below the diagonal. -/
theorem qrStep_reflect (s : α → α) (hs : ∀ a : α, 0 ≤ a → s a * s a = a)
    (A : Mat α) (i : Nat) (Q T : Mat α) (hinv : QRInv A i (Q, T))
    (hip : i < A.ins) (hpn : A.ins ≤ A.outs)
    (hz : IsZero (Slice T i (i + 1) (i + 1) A.outs) = false) :
    ∃ QT', qrStep s A.outs (Q, T) i = .ok QT' ∧ QRInv A (i + 1) QT' := by
  obtain ⟨hQi, hQo, hTi, hTo, horth, hrecon, htri⟩ := hinv
  have hiN : i < A.outs := lt_of_lt_of_le hip hpn
  set xvec : Vec α := Vec.ofFn (A.outs - i) (fun d => T.get i (i + d)) with hxvec
  have hxg : ∀ d, d < A.outs - i → xvec.get d = T.get i (i + d) := by
    intro d hd
    rw [hxvec, Vec.ofFn_get _ _ d hd]
  have hxv : VectorFromColumn (Slice T i (i + 1) i A.outs) = .ok xvec := by
    rw [VectorFromColumn_ok (Slice T i (i + 1) i A.outs)
      (show i + 1 - i = 1 from by omega)]
    refine congrArg Except.ok ?_
    refine Vec.ofFn_ext (A.outs - i) _ _ (fun d hd => ?_)
    rw [Slice_get T i (i + 1) i A.outs 0 d (by omega) hd, Nat.add_zero]
  have hnzcore : ∃ j, 1 ≤ j ∧ j < A.outs - i ∧ xvec.get j ≠ 0 := by
    rw [IsZero_eq_false_iff] at hz
    obtain ⟨o', ho', i', hi', hval⟩ := hz
    have ho'2 : o' < A.outs - (i + 1) := ho'
    have hi'2 : i' < i + 1 - i := hi'
    rw [show i' = 0 from by omega,
      Slice_get T i (i + 1) (i + 1) A.outs 0 o' (by omega) ho'2, Nat.add_zero] at hval
    refine ⟨1 + o', by omega, by omega, ?_⟩
    rw [hxg (1 + o') (by omega), show i + (1 + o') = i + 1 + o' from by omega]
    exact hval
  have hcore := householder_core s hs xvec (A.outs - i) rfl (by omega) hnzcore
  set vv : Vec α := householderV s xvec (BasisVector (A.outs - i) 0) with hvv
  set B : Mat α := Mat.ofFn (A.outs - i) (A.outs - i)
    (fun a b => (if a = b then (1 : α) else 0) - 2 * vv.get b * vv.get a) with hB
  have hBget : ∀ a b, a < A.outs - i → b < A.outs - i → B.get a b =
      (if a = b then (1 : α) else 0) - 2 * vv.get b * vv.get a := by
    intro a b ha hb
    rw [hB, Mat.get_ofFn _ _ _ a b ha hb]
  have hblock : HouseholderInto s xvec (BasisVector xvec.dim 0)
      (Slice (Identity A.outs) i A.outs i A.outs) = .ok B := by
    rw [HouseholderInto_eval s xvec (BasisVector xvec.dim 0) _ rfl rfl rfl]
    rfl
  obtain ⟨hBorth, hBsym⟩ := block_orth B vv (A.outs - i) hBget hcore.1
  have hBzero := block_zero B vv xvec (A.outs - i) hBget hcore.2
  obtain ⟨hHget, hHsym, hHcol, hHrow⟩ :=
    embed_facts B i A.outs (le_of_lt hiN) rfl rfl hBsym hBorth
  set H : Mat α := setBlock (Identity A.outs) i i B with hHdef
  set Q' : Mat α := Mat.ofFn (Dual H).ins Q.outs
    (fun a b => ∑ k in Finset.range (Dual H).outs, (Dual H).get a k * Q.get k b)
    with hQ'
  set T' : Mat α := Mat.ofFn T.ins H.outs
    (fun a b => ∑ k in Finset.range T.outs, T.get a k * H.get k b) with hT'
  have hrun : qrStep s A.outs (Q, T) i = .ok (Q', T') := by
    simp only [qrStep]
    rw [if_neg (show ¬ IsZero (Slice T i (i + 1) (i + 1) A.outs) = true by
      simp [hz])]
    rw [hxv]
    simp only [okBind]
    rw [hblock]
    simp only [okBind, ApplyToMatrix]
    rw [Compose_ok T H (show T.outs = H.ins from hTo)]
    simp only [okBind]
    rw [Compose_ok (Dual H) Q (show (Dual H).outs = Q.ins from hQi.symm)]
    simp only [okBind]
  have hQ'get : ∀ a b, a < A.outs → b < A.outs →
      Q'.get a b = ∑ k in Finset.range A.outs, H.get k a * Q.get k b := by
    intro a b ha hb
    rw [hQ', Mat.get_ofFn _ _ _ a b (show a < (Dual H).ins from ha)
      (show b < Q.outs from by rw [hQo]; exact hb)]
    refine Finset.sum_congr rfl (fun k hk => ?_)
    rw [Dual_get H a k (show a < H.outs from ha)
      (show k < H.ins from Finset.mem_range.mp hk)]
  have hT'get : ∀ a b, a < A.ins → b < A.outs →
      T'.get a b = ∑ k in Finset.range A.outs, T.get a k * H.get k b := by
    intro a b ha hb
    rw [hT', Mat.get_ofFn _ _ _ a b (show a < T.ins from by rw [hTi]; exact ha)
      (show b < H.outs from hb)]
    exact Finset.sum_congr (by rw [hTo]) (fun k _ => rfl)
  refine ⟨(Q', T'), hrun, rfl, hQo, hTi, rfl, ?_, ?_, ?_⟩
  · intro a b ha hb
    rw [Finset.sum_congr rfl (fun k hk => by
      rw [hQ'get a k ha (Finset.mem_range.mp hk),
        hQ'get b k hb (Finset.mem_range.mp hk)])]
    rw [sum_swap_prod A.outs A.outs A.outs (fun c => H.get c a) (fun d => H.get d b)
      (fun c k => Q.get c k) (fun d k => Q.get d k)]
    rw [Finset.sum_congr rfl (fun c hc => Finset.sum_congr rfl (fun d hd => by
      rw [horth c d (Finset.mem_range.mp hc) (Finset.mem_range.mp hd)]))]
    rw [Finset.sum_congr rfl (fun c hc => ?_)]
    · rw [Finset.sum_congr rfl (fun c hc => rfl)]
      exact hHcol a b ha hb
    · rw [Finset.sum_congr rfl (fun d _ => by rw [delta_comm]),
        sum_delta_right A.outs c (fun d => H.get c a * H.get d b)
          (Finset.mem_range.mp hc)]
  · intro a b ha hb
    rw [Finset.sum_congr rfl (fun k hk => by
      rw [hT'get a k ha (Finset.mem_range.mp hk),
        hQ'get k b (Finset.mem_range.mp hk) hb,
        Finset.sum_congr rfl (fun d _ => mul_comm (H.get d k) (Q.get d b))])]
    rw [sum_swap_prod A.outs A.outs A.outs (fun c => T.get a c) (fun d => Q.get d b)
      (fun c k => H.get c k) (fun d k => H.get d k)]
    rw [Finset.sum_congr rfl (fun c hc => Finset.sum_congr rfl (fun d hd => by
      rw [hHrow c d (Finset.mem_range.mp hc) (Finset.mem_range.mp hd)]))]
    rw [Finset.sum_congr rfl (fun c hc => ?_)]
    · rw [Finset.sum_congr rfl (fun c hc => rfl)]
      exact hrecon a b ha hb
    · rw [Finset.sum_congr rfl (fun d _ => by rw [delta_comm]),
        sum_delta_right A.outs c (fun d => T.get a c * Q.get d b)
          (Finset.mem_range.mp hc)]
  · intro c o hc1 hc2 ho hco
    rw [hT'get c o hc2 ho, sum_range_split A.outs i (le_of_lt hiN)]
    by_cases hci : c = i
    · subst hci
      have h1 : ∑ k in Finset.range c, T.get c k * H.get k o = 0 := by
        refine Finset.sum_eq_zero (fun k hk => ?_)
        have hki : k < c := Finset.mem_range.mp hk
        rw [hHget k o (by omega) ho,
          if_neg (show ¬ (c ≤ k ∧ c ≤ o) from fun hcc => by omega),
          if_neg (show ¬ k = o from by omega), mul_zero]
      have h2 : ∑ j in Finset.range (A.outs - c), T.get c (c + j) * H.get (c + j) o =
          ∑ j in Finset.range (A.outs - c), xvec.get j * B.get j (o - c) := by
        refine Finset.sum_congr rfl (fun j hj => ?_)
        have hjm : j < A.outs - c := Finset.mem_range.mp hj
        rw [← hxg j hjm, hHget (c + j) o (by omega) ho,
          if_pos (show c ≤ c + j ∧ c ≤ o from ⟨by omega, by omega⟩),
          show c + j - c = j from by omega]
      rw [h1, h2, hBzero (o - c) (by omega) (by omega), zero_add]
    · have hci' : c < i := by omega
      have h2 : ∑ j in Finset.range (A.outs - i), T.get c (i + j) * H.get (i + j) o =
          0 := by
        refine Finset.sum_eq_zero (fun j hj => ?_)
        have hjm : j < A.outs - i := Finset.mem_range.mp hj
        rw [htri c (i + j) hci' hc2 (by omega) (by omega), zero_mul]
      by_cases hoi : o < i
      · have h1 : ∑ k in Finset.range i, T.get c k * H.get k o = 0 := by
          rw [Finset.sum_congr rfl (fun k hk => by
            have hki : k < i := Finset.mem_range.mp hk
            rw [hHget k o (by omega) ho,
              if_neg (show ¬ (i ≤ k ∧ i ≤ o) from fun hcc => by omega)])]
          rw [sum_delta_right i o (fun k => T.get c k) hoi]
          exact htri c o hci' hc2 ho hco
        rw [h1, h2, add_zero]
      · have h1 : ∑ k in Finset.range i, T.get c k * H.get k o = 0 := by
          refine Finset.sum_eq_zero (fun k hk => ?_)
          have hki : k < i := Finset.mem_range.mp hk
          rw [hHget k o (by omega) ho,
            if_neg (show ¬ (i ≤ k ∧ i ≤ o) from fun hcc => by omega),
            if_neg (show ¬ k = o from by omega), mul_zero]
        rw [h1, h2, add_zero]

end Linear

namespace Linear

variable {α : Type} [LinearOrderedField α]

/-- Skip case of the QR column loop: a zero sub-diagonal block leaves the
working pair unchanged and extends the invariant to column `i`. -/
theorem qrStep_skip_inv (s : α → α) (A : Mat α) (i : Nat) (Q T : Mat α)
    (hinv : QRInv A i (Q, T)) (hip : i < A.ins)
    (hz : IsZero (Slice T i (i + 1) (i + 1) A.outs) = true) :
    qrStep s A.outs (Q, T) i = .ok (Q, T) ∧ QRInv A (i + 1) (Q, T) := by
  obtain ⟨hQi, hQo, hTi, hTo, horth, hrecon, htri⟩ := hinv
  refine ⟨qrStep_skip s A.outs (Q, T) i hz,
    hQi, hQo, hTi, hTo, horth, hrecon, ?_⟩
  intro c o hc1 hc2 ho hco
  by_cases hci : c = i
  · subst hci
    rw [IsZero_eq_true_iff] at hz
    have hsub := hz (o - (c + 1))
      (show o - (c + 1) < A.outs - (c + 1) from by omega) 0
      (show (0 : Nat) < c + 1 - c from by omega)
    rw [Slice_get T c (c + 1) (c + 1) A.outs 0 (o - (c + 1)) (by omega) (by omega),
      Nat.add_zero, show c + 1 + (o - (c + 1)) = o from by omega] at hsub
    exact hsub
  · exact htri c o (by omega) hc2 ho hco

/-- The QR loop invariant holds initially. -/
theorem qrInv_init (A : Mat α) :
    QRInv A 0 ((Identity A.outs : Mat α), Slice A 0 A.ins 0 A.outs) := by
  refine ⟨rfl, rfl, rfl, rfl, ?_, ?_, fun c o hc _ _ _ => absurd hc (Nat.not_lt_zero c)⟩
  · intro a b ha hb
    rw [Finset.sum_congr rfl (fun k hk => by
      rw [Identity_get A.outs a k ha (Finset.mem_range.mp hk),
        Identity_get A.outs b k hb (Finset.mem_range.mp hk),
        delta_comm a k, delta_comm b k])]
    rw [sum_delta_left A.outs a (fun k => if k = b then (1 : α) else 0) ha]
  · intro a b ha hb
    rw [Finset.sum_congr rfl (fun k hk => by
      rw [Identity_get A.outs k b (Finset.mem_range.mp hk) hb])]
    rw [sum_delta_right A.outs b (fun k => (Slice A 0 A.ins 0 A.outs).get a k) hb]
    rw [Slice_get A 0 A.ins 0 A.outs a b (by omega) (by omega),
      Nat.zero_add, Nat.zero_add]

/-- The QR column loop maintains its invariant and never fails. -/
theorem qr_loop (s : α → α) (hs : ∀ a : α, 0 ≤ a → s a * s a = a) (A : Mat α)
    (hpn : A.ins ≤ A.outs) :
    ∀ i, i ≤ A.ins → ∃ QT, (List.range i).foldlM (qrStep s A.outs)
      ((Identity A.outs : Mat α), Slice A 0 A.ins 0 A.outs) = .ok QT ∧
      QRInv A i QT := by
  intro i
  induction i with
  | zero => exact fun _ => ⟨_, rfl, qrInv_init A⟩
  | succ i ih =>
    intro h
    obtain ⟨⟨Q1, T1⟩, h1, h2⟩ := ih (by omega)
    by_cases hz : IsZero (Slice T1 i (i + 1) (i + 1) A.outs) = true
    · obtain ⟨hstep, hinv'⟩ := qrStep_skip_inv s A i Q1 T1 h2 (by omega) hz
      refine ⟨(Q1, T1), ?_, hinv'⟩
      rw [List.range_succ, List.foldlM_append, h1]
      simp only [okBind, List.foldlM_cons, hstep, List.foldlM_nil]
      rfl
    · rw [Bool.not_eq_true] at hz
      obtain ⟨QT', hstep, hinv'⟩ := qrStep_reflect s hs A i Q1 T1 h2 (by omega) hpn hz
      refine ⟨QT', ?_, hinv'⟩
      rw [List.range_succ, List.foldlM_append, h1]
      simp only [okBind, List.foldlM_cons, hstep, List.foldlM_nil]
      rfl

/-- `DecomposeQR` (part_006) succeeds on any `A` with `outs >= ins` and
returns `Q` with orthonormal rows, upper-triangular `R`, and
`Compose(R, Q) = A` entrywise — exactly, in the idealized field semantics. -/
theorem DecomposeQR_props (s : α → α) (hs : ∀ a : α, 0 ≤ a → s a * s a = a)
    (A : Mat α) (hpn : A.ins ≤ A.outs) :
    ∃ Q R, DecomposeQR s A = .ok (Q, R) ∧ Q.ins = A.outs ∧ Q.outs = A.outs ∧
      R.ins = A.ins ∧ R.outs = A.outs ∧
      (∀ a b, a < A.outs → b < A.outs →
        ∑ k in Finset.range A.outs, Q.get a k * Q.get b k =
          (if a = b then 1 else 0)) ∧
      (∀ a b, a < A.ins → b < A.outs →
        ∑ k in Finset.range A.outs, R.get a k * Q.get k b = A.get a b) ∧
      (∀ c o, c < A.ins → o < A.outs → c < o → R.get c o = 0) := by
  obtain ⟨⟨Qw, Tw⟩, h1, h2⟩ := qr_loop s hs A hpn A.ins (Nat.le_refl _)
  obtain ⟨hQi, hQo, hTi, hTo, horth, hrecon, htri⟩ := h2
  refine ⟨Mat.ofFn A.outs A.outs Qw.get, Mat.ofFn A.ins A.outs Tw.get,
    ?_, rfl, rfl, rfl, rfl, ?_, ?_, ?_⟩
  · rw [DecomposeQR, DecomposeIntoQR]
    rw [if_neg (by simp [NewArrayMatrix]), if_neg (by simp [NewArrayMatrix])]
    show ((List.range A.ins).foldlM (qrStep s A.outs)
      ((Identity A.outs : Mat α), Slice A 0 A.ins 0 A.outs)) >>= _ = _
    rw [h1]
    simp only [okBind]
    rw [CopyInto_ok Qw (NewArrayMatrix A.outs A.outs)
      (show (NewArrayMatrix A.outs A.outs : Mat α).ins = Qw.ins from hQi.symm)
      (show (NewArrayMatrix A.outs A.outs : Mat α).outs = Qw.outs from hQo.symm)]
    simp only [okBind]
    rw [CopyInto_ok Tw (NewArrayMatrix A.ins A.outs)
      (show (NewArrayMatrix A.ins A.outs : Mat α).ins = Tw.ins from hTi.symm)
      (show (NewArrayMatrix A.ins A.outs : Mat α).outs = Tw.outs from hTo.symm)]
    simp only [okBind]
    rfl
  · intro a b ha hb
    rw [Finset.sum_congr rfl (fun k hk => by
      rw [Mat.get_ofFn A.outs A.outs Qw.get a k ha (Finset.mem_range.mp hk),
        Mat.get_ofFn A.outs A.outs Qw.get b k hb (Finset.mem_range.mp hk)])]
    exact horth a b ha hb
  · intro a b ha hb
    rw [Finset.sum_congr rfl (fun k hk => by
      rw [Mat.get_ofFn A.ins A.outs Tw.get a k ha (Finset.mem_range.mp hk),
        Mat.get_ofFn A.outs A.outs Qw.get k b (Finset.mem_range.mp hk) hb])]
    exact hrecon a b ha hb
  · intro c o hc ho hco
    rw [Mat.get_ofFn A.ins A.outs Tw.get c o hc ho]
    exact htri c o hc hc ho hco

end Linear

namespace Linear

/-- C6: for every `A` with `outs >= ins`, `DecomposeQR(A) = (Q, R)` (over
the idealized real semantics, with `math.Sqrt` interpreted as `Real.sqrt`)
satisfies the QR contract within tolerance `1e-9`: `Q` is `outs×outs` with
`Compose(Q, Dual(Q))` (i.e. `Dual(Q)·Q` in matrix notation) within `1e-9`
of `Identity(outs)`, `R` is `ins×outs` with all entries strictly below the
diagonal within `1e-9` of zero, and `Compose(R, Q)` within `1e-9` of `A`
entrywise.  In exact real arithmetic the three identities hold exactly, so
every deviation is `0 ≤ 1e-9`. -/
theorem c6_qrContract :
    ∀ (A : Mat ℝ), A.ins ≤ A.outs →
      ∃ Q R, DecomposeQR Real.sqrt A = .ok (Q, R) ∧
        (Q.ins = A.outs ∧ Q.outs = A.outs ∧
          ∃ C, Compose Q (Dual Q) = .ok C ∧ ∀ a b, a < A.outs → b < A.outs →
            |C.get a b - (if a = b then 1 else 0)| ≤ eps) ∧
        (R.ins = A.ins ∧ R.outs = A.outs ∧
          ∀ a b, a < A.ins → a < b → b < A.outs → |R.get a b| ≤ eps) ∧
        (∃ D, Compose R Q = .ok D ∧ ∀ a b, a < A.ins → b < A.outs →
          |D.get a b - A.get a b| ≤ eps) := by
  intro A hpn
  obtain ⟨Q, R, hok, hQi, hQo, hRi, hRo, horth, hrecon, htri⟩ :=
    DecomposeQR_props Real.sqrt (fun a ha => Real.mul_self_sqrt ha) A hpn
  refine ⟨Q, R, hok, ⟨hQi, hQo, ?_⟩, ⟨hRi, hRo, ?_⟩, ?_⟩
  · refine ⟨_, Compose_ok Q (Dual Q) rfl, fun a b ha hb => ?_⟩
    have ha' : a < Q.ins := by rw [hQi]; exact ha
    have hb' : b < Q.ins := by rw [hQi]; exact hb
    rw [Mat.get_ofFn Q.ins (Dual Q).outs _ a b ha' hb']
    have hsum : ∑ k in Finset.range Q.outs, Q.get a k * (Dual Q).get k b =
        ∑ k in Finset.range A.outs, Q.get a k * Q.get b k := by
      refine Finset.sum_congr (by rw [hQo]) (fun k hk => ?_)
      have hk' : k < A.outs := Finset.mem_range.mp hk
      rw [Dual_get Q k b (show k < Q.outs from by rw [hQo]; exact hk') hb']
    rw [hsum, horth a b ha hb, sub_self, abs_zero]
    exact le_of_lt eps_pos
  · intro a b ha hab hb
    rw [htri a b ha hb hab, abs_zero]
    exact le_of_lt eps_pos
  · refine ⟨_, Compose_ok R Q (show R.outs = Q.ins from by rw [hRo, hQi]),
      fun a b ha hb => ?_⟩
    rw [Mat.get_ofFn R.ins Q.outs _ a b
      (show a < R.ins from by rw [hRi]; exact ha)
      (show b < Q.outs from by rw [hQo]; exact hb)]
    have hsum : ∑ k in Finset.range R.outs, R.get a k * Q.get k b =
        ∑ k in Finset.range A.outs, R.get a k * Q.get k b :=
      Finset.sum_congr (by rw [hRo]) (fun k _ => rfl)
    rw [hsum, hrecon a b ha hb, sub_self, abs_zero]
    exact le_of_lt eps_pos

/-- C6 witness: the QR contract at the concrete real matrix
`A = [[2,1],[0,3]]`. -/
theorem c6_qrContract_witness :
    ((⟨2, 2, [2, 1, 0, 3]⟩ : Mat ℝ).ins ≤ (⟨2, 2, [2, 1, 0, 3]⟩ : Mat ℝ).outs) ∧
    (∃ Q R, DecomposeQR Real.sqrt (⟨2, 2, [2, 1, 0, 3]⟩ : Mat ℝ) = .ok (Q, R) ∧
      (Q.ins = 2 ∧ Q.outs = 2 ∧
        ∃ C, Compose Q (Dual Q) = .ok C ∧ ∀ a b, a < 2 → b < 2 →
          |C.get a b - (if a = b then 1 else 0)| ≤ eps) ∧
      (R.ins = 2 ∧ R.outs = 2 ∧
        ∀ a b, a < 2 → a < b → b < 2 → |R.get a b| ≤ eps) ∧
      (∃ D, Compose R Q = .ok D ∧ ∀ a b, a < 2 → b < 2 →
        |D.get a b - (⟨2, 2, [2, 1, 0, 3]⟩ : Mat ℝ).get a b| ≤ eps)) :=
  ⟨by decide, c6_qrContract (⟨2, 2, [2, 1, 0, 3]⟩ : Mat ℝ) (by decide)⟩

end Linear

namespace Linear

/-!
Frame lemmas for the heap embedding: the `WritesOnly` calculus and the
allocation patterns, leading to the frame theorem for `DecomposeQR`.
-/

section HeapFrame

variable {α : Type} [LinearOrderedField α]

theorem run_bind {β γ : Type} (m : M α β) (f : β → M α γ) (st : St α) :
    (m >>= f) st = match m st with
      | .error e => .error e
      | .ok (a, st1) => f a st1 := rfl

theorem bind_ok {β γ : Type} {m : M α β} {f : β → M α γ} {st : St α} {c : γ}
    {st' : St α} (h : (m >>= f) st = .ok (c, st')) :
    ∃ b st1, m st = .ok (b, st1) ∧ f b st1 = .ok (c, st') := by
  rw [run_bind] at h
  cases hm : m st with
  | error e =>
    rw [hm] at h
    exact Except.noConfusion h
  | ok p =>
    obtain ⟨b, st1⟩ := p
    rw [hm] at h
    exact ⟨b, st1, rfl, h⟩

theorem bind_pure_ret {β γ : Type} {m : M α β} {c : γ} {st : St α} {v : γ}
    {st' : St α} (h : (m >>= fun _ => pure c) st = .ok (v, st')) : v = c := by
  obtain ⟨b, st1, h1, h2⟩ := bind_ok h
  exact (congrArg Prod.fst (Except.ok.inj h2)).symm

theorem wo_mono {β : Type} {m : M α β} {ids ids' : List Nat}
    (hsub : ∀ x ∈ ids, x ∈ ids') (h : WritesOnly m ids) : WritesOnly m ids' := by
  intro st r st' hr
  obtain ⟨h1, h2⟩ := h st r st' hr
  exact ⟨h1, fun id hid hnin => h2 id hid (fun hmem => hnin (hsub id hmem))⟩

theorem wo_pure {β : Type} (b : β) (ids : List Nat) :
    WritesOnly (pure b : M α β) ids := by
  intro st r st' h
  have h2 : st = st' := congrArg Prod.snd (Except.ok.inj h)
  subst h2
  exact ⟨le_refl _, fun id _ _ => rfl⟩

theorem wo_throw {β : Type} (e : Err α) (ids : List Nat) :
    WritesOnly (mthrow e : M α β) ids := by
  intro st r st' h
  exact Except.noConfusion h

theorem wo_bind {β γ : Type} {m : M α β} {f : β → M α γ} {ids : List Nat}
    (hm : WritesOnly m ids) (hf : ∀ b, WritesOnly (f b) ids) :
    WritesOnly (m >>= f) ids := by
  intro st r st' h
  obtain ⟨b, st1, h1, h2⟩ := bind_ok h
  obtain ⟨hm1, hm2⟩ := hm st b st1 h1
  obtain ⟨hf1, hf2⟩ := hf b st1 r st' h2
  refine ⟨le_trans hm1 hf1, fun id hid hnin => ?_⟩
  rw [hf2 id (lt_of_lt_of_le hid hm1) hnin, hm2 id hid hnin]

theorem wo_ite {β : Type} {c : Prop} [Decidable c] {m1 m2 : M α β}
    {ids : List Nat} (h1 : WritesOnly m1 ids) (h2 : WritesOnly m2 ids) :
    WritesOnly (if c then m1 else m2) ids := by
  by_cases hc : c
  · simpa [hc] using h1
  · simpa [hc] using h2

theorem wo_foldlM {β γ : Type} {f : γ → β → M α γ} {ids : List Nat}
    (hf : ∀ c b, WritesOnly (f c b) ids) :
    ∀ (l : List β) (c : γ), WritesOnly (l.foldlM f c) ids := by
  intro l
  induction l with
  | nil => intro c; exact wo_pure c ids
  | cons x xs ih => intro c; exact wo_bind (hf c x) (fun c2 => ih c2)

theorem msetM_frame (r : MRef) (i o : Nat) (v : α) :
    ∀ st u st', msetM r i o v st = .ok (u, st') →
      st'.next = st.next ∧ ∀ id, id ≠ r.baseId → st'.heap id = st.heap id := by
  induction r generalizing i o with
  | arr id2 ins outs =>
    intro st u st' h
    simp only [msetM] at h
    split at h
    · have h2 : heapWrite st id2 (o * ins + i) v = st' :=
        congrArg Prod.snd (Except.ok.inj h)
    -- the write only touches array `id2`
      subst h2
      refine ⟨rfl, fun id hid => ?_⟩
      exact if_neg hid
    · exact Except.noConfusion h
  | slice p inLo inHi outLo outHi ihp =>
    intro st u st' h
    simp only [msetM] at h
    split at h
    · exact Except.noConfusion h
    · exact ihp (inLo + i) (outLo + o) st u st' h
  | dual p ihp =>
    intro st u st' h
    simp only [msetM] at h
    exact ihp o i st u st' h

theorem wo_msetM (r : MRef) (i o : Nat) (v : α) :
    WritesOnly (msetM r i o v) [r.baseId] := by
  intro st u st' h
  obtain ⟨h1, h2⟩ := msetM_frame r i o v st u st' h
  refine ⟨le_of_eq h1.symm, fun id _ hnin => ?_⟩
  exact h2 id (fun he => hnin (he ▸ List.mem_singleton_self _))

theorem vsetM_frame (r : VRef) (d : Nat) (v : α) :
    ∀ st u st', vsetM r d v st = .ok (u, st') →
      st'.next = st.next ∧ ∀ id, id ≠ r.baseId → st'.heap id = st.heap id := by
  cases r with
  | arr id2 dim =>
    intro st u st' h
    simp only [vsetM] at h
    split at h
    · have h2 : heapWrite st id2 d v = st' := congrArg Prod.snd (Except.ok.inj h)
      subst h2
      exact ⟨rfl, fun id hid => if_neg hid⟩
    · exact Except.noConfusion h
  | col m =>
    intro st u st' h
    exact msetM_frame m 0 d v st u st' h

theorem wo_vsetM (r : VRef) (d : Nat) (v : α) :
    WritesOnly (vsetM r d v) [r.baseId] := by
  intro st u st' h
  obtain ⟨h1, h2⟩ := vsetM_frame r d v st u st' h
  refine ⟨le_of_eq h1.symm, fun id _ hnin => ?_⟩
  exact h2 id (fun he => hnin (he ▸ List.mem_singleton_self _))

theorem mgetM_state (r : MRef) (i o : Nat) :
    ∀ st v st', mgetM (α := α) r i o st = .ok (v, st') → st' = st := by
  induction r generalizing i o with
  | arr id2 ins outs =>
    intro st v st' h
    simp only [mgetM] at h
    split at h
    · exact (congrArg Prod.snd (Except.ok.inj h)).symm
    · exact Except.noConfusion h
  | slice p inLo inHi outLo outHi ihp =>
    intro st v st' h
    simp only [mgetM] at h
    split at h
    · exact Except.noConfusion h
    · exact ihp (inLo + i) (outLo + o) st v st' h
  | dual p ihp =>
    intro st v st' h
    simp only [mgetM] at h
    exact ihp o i st v st' h

theorem wo_mgetM (r : MRef) (i o : Nat) (ids : List Nat) :
    WritesOnly (mgetM (α := α) r i o) ids := by
  intro st v st' h
  rw [mgetM_state r i o st v st' h]
  exact ⟨le_refl _, fun _ _ _ => rfl⟩

theorem vgetM_state (r : VRef) (d : Nat) :
    ∀ st v st', vgetM (α := α) r d st = .ok (v, st') → st' = st := by
  cases r with
  | arr id2 dim =>
    intro st v st' h
    simp only [vgetM] at h
    split at h
    · exact (congrArg Prod.snd (Except.ok.inj h)).symm
    · exact Except.noConfusion h
  | col m =>
    intro st v st' h
    exact mgetM_state m 0 d st v st' h

theorem wo_vgetM (r : VRef) (d : Nat) (ids : List Nat) :
    WritesOnly (vgetM (α := α) r d) ids := by
  intro st v st' h
  rw [vgetM_state r d st v st' h]
  exact ⟨le_refl _, fun _ _ _ => rfl⟩

theorem wo_of_allocM {m : M α MRef} (h : AllocLikeM m) (ids : List Nat) :
    WritesOnly m ids := by
  intro st r st' hr
  obtain ⟨h1, _, h3⟩ := h st r st' hr
  exact ⟨h1, fun id hid _ => h3 id hid⟩

theorem wo_of_allocV {m : M α VRef} (h : AllocLikeV m) (ids : List Nat) :
    WritesOnly m ids := by
  intro st r st' hr
  obtain ⟨h1, _, h3⟩ := h st r st' hr
  exact ⟨h1, fun id hid _ => h3 id hid⟩

theorem allocM_newArrayMatrixS (ins outs : Nat) :
    AllocLikeM (newArrayMatrixS (α := α) ins outs) := by
  intro st r st' h
  have h2 := Except.ok.inj h
  have hr : r = .arr st.next ins outs := (congrArg Prod.fst h2).symm
  have hst : st' = ⟨fun id => if id = st.next then (fun _ => 0) else st.heap id,
      st.next + 1⟩ := (congrArg Prod.snd h2).symm
  subst hr
  subst hst
  exact ⟨Nat.le_succ _, le_refl _, fun id hid => if_neg (Nat.ne_of_lt hid)⟩

theorem allocV_newArrayVectorS (dim : Nat) :
    AllocLikeV (newArrayVectorS (α := α) dim) := by
  intro st r st' h
  have h2 := Except.ok.inj h
  have hr : r = .arr st.next dim := (congrArg Prod.fst h2).symm
  have hst : st' = ⟨fun id => if id = st.next then (fun _ => 0) else st.heap id,
      st.next + 1⟩ := (congrArg Prod.snd h2).symm
  subst hr
  subst hst
  exact ⟨Nat.le_succ _, le_refl _, fun id hid => if_neg (Nat.ne_of_lt hid)⟩

theorem wo_bindAllocM {γ : Type} {mk : M α MRef} {f : MRef → M α γ}
    {ids : List Nat} (hmk : AllocLikeM mk)
    (hf : ∀ r, WritesOnly (f r) (r.baseId :: ids)) :
    WritesOnly (mk >>= f) ids := by
  intro st c st' h
  obtain ⟨r1, st1, h1, h2⟩ := bind_ok h
  obtain ⟨ha1, ha2, ha3⟩ := hmk st r1 st1 h1
  obtain ⟨hb1, hb2⟩ := hf r1 st1 c st' h2
  refine ⟨le_trans ha1 hb1, fun id hid hnin => ?_⟩
  have hne : id ≠ r1.baseId := Nat.ne_of_lt (lt_of_lt_of_le hid ha2)
  have hnin2 : id ∉ r1.baseId :: ids := by
    intro hmem
    rcases List.mem_cons.mp hmem with hh | hh
    · exact hne hh
    · exact hnin hh
  rw [hb2 id (lt_of_lt_of_le hid ha1) hnin2, ha3 id hid]

theorem wo_bindAllocV {γ : Type} {mk : M α VRef} {f : VRef → M α γ}
    {ids : List Nat} (hmk : AllocLikeV mk)
    (hf : ∀ r, WritesOnly (f r) (r.baseId :: ids)) :
    WritesOnly (mk >>= f) ids := by
  intro st c st' h
  obtain ⟨r1, st1, h1, h2⟩ := bind_ok h
  obtain ⟨ha1, ha2, ha3⟩ := hmk st r1 st1 h1
  obtain ⟨hb1, hb2⟩ := hf r1 st1 c st' h2
  refine ⟨le_trans ha1 hb1, fun id hid hnin => ?_⟩
  have hne : id ≠ r1.baseId := Nat.ne_of_lt (lt_of_lt_of_le hid ha2)
  have hnin2 : id ∉ r1.baseId :: ids := by
    intro hmem
    rcases List.mem_cons.mp hmem with hh | hh
    · exact hne hh
    · exact hnin hh
  rw [hb2 id (lt_of_lt_of_le hid ha1) hnin2, ha3 id hid]

theorem allocM_bind {mk : M α MRef} {g : MRef → M α MRef}
    (hmk : AllocLikeM mk) (hg : ∀ r, WritesOnly (g r) [r.baseId])
    (hgv : ∀ r st v st', g r st = .ok (v, st') → v = r) :
    AllocLikeM (mk >>= g) := by
  intro st r st' h
  obtain ⟨r1, st1, h1, h2⟩ := bind_ok h
  obtain ⟨ha1, ha2, ha3⟩ := hmk st r1 st1 h1
  obtain ⟨hb1, hb2⟩ := hg r1 st1 r st' h2
  have hv := hgv r1 st1 r st' h2
  subst hv
  refine ⟨le_trans ha1 hb1, ha2, fun id hid => ?_⟩
  have hnin : id ∉ [r.baseId] := by
    intro hmem
    exact Nat.ne_of_lt (lt_of_lt_of_le hid ha2) (List.mem_singleton.mp hmem)
  rw [hb2 id (lt_of_lt_of_le hid ha1) hnin, ha3 id hid]

theorem allocV_bind {mk : M α VRef} {g : VRef → M α VRef}
    (hmk : AllocLikeV mk) (hg : ∀ r, WritesOnly (g r) [r.baseId])
    (hgv : ∀ r st v st', g r st = .ok (v, st') → v = r) :
    AllocLikeV (mk >>= g) := by
  intro st r st' h
  obtain ⟨r1, st1, h1, h2⟩ := bind_ok h
  obtain ⟨ha1, ha2, ha3⟩ := hmk st r1 st1 h1
  obtain ⟨hb1, hb2⟩ := hg r1 st1 r st' h2
  have hv := hgv r1 st1 r st' h2
  subst hv
  refine ⟨le_trans ha1 hb1, ha2, fun id hid => ?_⟩
  have hnin : id ∉ [r.baseId] := by
    intro hmem
    exact Nat.ne_of_lt (lt_of_lt_of_le hid ha2) (List.mem_singleton.mp hmem)
  rw [hb2 id (lt_of_lt_of_le hid ha1) hnin, ha3 id hid]

theorem wo_cons {β : Type} {m : M α β} {a : Nat} {ids : List Nat}
    (h : WritesOnly m [a]) : WritesOnly m (a :: ids) :=
  wo_mono (fun _ hx => List.mem_cons.mpr (Or.inl (List.mem_singleton.mp hx))) h

theorem wo_tail {β : Type} {m : M α β} {a : Nat} {ids : List Nat}
    (h : WritesOnly m ids) : WritesOnly m (a :: ids) :=
  wo_mono (fun _ hx => List.mem_cons.mpr (Or.inr hx)) h

theorem wo_nil {β : Type} {m : M α β} {ids : List Nat}
    (h : WritesOnly m []) : WritesOnly m ids :=
  wo_mono (fun x hx => (List.not_mem_nil x hx).elim) h

theorem wo_single_mem {β : Type} {m : M α β} {a : Nat} {ids : List Nat}
    (ha : a ∈ ids) (h : WritesOnly m [a]) : WritesOnly m ids :=
  wo_mono (fun _ hx => (List.mem_singleton.mp hx) ▸ ha) h

theorem allocM_IdentityS (dim : Nat) : AllocLikeM (IdentityS (α := α) dim) := by
  unfold IdentityS
  exact allocM_bind (allocM_newArrayMatrixS dim dim)
    (fun I => wo_bind (wo_foldlM (fun c d => wo_msetM I d d 1) _ _)
      (fun _ => wo_pure I _))
    (fun r st v st' h => bind_pure_ret h)

theorem allocV_BasisVectorS (dim index : Nat) :
    AllocLikeV (BasisVectorS (α := α) dim index) := by
  unfold BasisVectorS
  exact allocV_bind (allocV_newArrayVectorS dim)
    (fun e => wo_bind (wo_vsetM e index 1) (fun _ => wo_pure e _))
    (fun r st v st' h => bind_pure_ret h)

theorem wo_L2NormS (s : α → α) (v : VRef) (ids : List Nat) :
    WritesOnly (L2NormS s v) ids := by
  unfold L2NormS
  exact wo_bind
    (wo_foldlM (fun acc d => wo_bind (wo_vgetM v d ids) (fun a => wo_pure _ _)) _ _)
    (fun sum => wo_pure _ _)

theorem allocV_NormalizeS (s : α → α) (v : VRef) :
    AllocLikeV (NormalizeS s v) := by
  unfold NormalizeS
  refine allocV_bind (allocV_newArrayVectorS v.dim) (fun dst => ?_) ?_
  · refine wo_ite (wo_throw _ _) ?_
    refine wo_bind (wo_L2NormS s v _) (fun mag => ?_)
    refine wo_bind (wo_foldlM (fun c d => wo_bind (wo_vgetM v d _)
      (fun a => wo_vsetM dst d (a / mag))) _ _) (fun _ => wo_pure dst _)
  · intro r st v2 st' h
    split at h
    · exact Except.noConfusion h
    · obtain ⟨mag, st1, h1, h2⟩ := bind_ok h
      exact bind_pure_ret h2

theorem wo_IsZeroS (A : MRef) (ids : List Nat) :
    WritesOnly (IsZeroS (α := α) A) ids := by
  unfold IsZeroS
  exact wo_foldlM (fun acc o => wo_foldlM (fun acc2 i =>
    wo_bind (wo_mgetM A i o ids) (fun v => wo_pure _ _)) _ _) _ _

theorem wo_IdentityIntoS (dst : MRef) :
    WritesOnly (IdentityIntoS (α := α) dst) [dst.baseId] := by
  unfold IdentityIntoS
  exact wo_ite (wo_throw _ _)
    (wo_foldlM (fun c o => wo_foldlM (fun c2 i =>
      wo_msetM dst i o (if i = o then 1 else 0)) _ _) _ _)

theorem wo_CopyIntoS (src dst : MRef) :
    WritesOnly (CopyIntoS (α := α) src dst) [dst.baseId] := by
  unfold CopyIntoS
  exact wo_ite (wo_throw _ _)
    (wo_foldlM (fun c o => wo_foldlM (fun c2 i =>
      wo_bind (wo_mgetM src i o _) (fun v => wo_msetM dst i o v)) _ _) _ _)

theorem wo_ComposeIntoS (A B dst : MRef) :
    WritesOnly (ComposeIntoS (α := α) A B dst) [dst.baseId] := by
  unfold ComposeIntoS
  refine wo_ite (wo_throw _ _) ?_
  refine wo_foldlM (fun c o => wo_foldlM (fun c2 i => ?_) _ _) _ _
  refine wo_bind (wo_foldlM (fun acc k => ?_) _ _) (fun dot => wo_msetM dst i o dot)
  exact wo_bind (wo_mgetM A i k _) (fun x =>
    wo_bind (wo_mgetM B k o _) (fun y => wo_pure _ _))

theorem allocM_ComposeS (A B : MRef) : AllocLikeM (ComposeS (α := α) A B) := by
  unfold ComposeS
  exact allocM_bind (allocM_newArrayMatrixS _ _)
    (fun dst => wo_bind (wo_ComposeIntoS A B dst) (fun _ => wo_pure dst _))
    (fun r st v st' h => bind_pure_ret h)

theorem allocM_ApplyToMatrixS (A X : MRef) :
    AllocLikeM (ApplyToMatrixS (α := α) A X) := by
  unfold ApplyToMatrixS
  exact allocM_ComposeS X A

theorem wo_VectorFromColumnS (A : MRef) (ids : List Nat) :
    WritesOnly (VectorFromColumnS (α := α) A) ids := by
  unfold VectorFromColumnS
  exact wo_ite (wo_throw _ _) (wo_pure _ _)

theorem wo_HouseholderIntoS (s : α → α) (x e : VRef) (H : MRef) :
    WritesOnly (HouseholderIntoS s x e H) [H.baseId] := by
  unfold HouseholderIntoS
  refine wo_ite (wo_throw _ _) (wo_ite (wo_throw _ _) (wo_ite (wo_throw _ _) ?_))
  refine wo_bind (wo_L2NormS s x _) (fun xmag => ?_)
  refine wo_bind (wo_vgetM x 0 _) (fun x0 => ?_)
  refine wo_bindAllocV (allocV_newArrayVectorS x.dim) (fun u => ?_)
  refine wo_bind (wo_foldlM (fun c d => wo_bind (wo_vgetM x d _)
    (fun xd => wo_bind (wo_vgetM e d _)
      (fun ed => wo_cons (wo_vsetM u d _)))) _ _) (fun _ => ?_)
  refine wo_bindAllocV (allocV_NormalizeS s u) (fun v => ?_)
  refine wo_bind (wo_tail (wo_tail (wo_IdentityIntoS H))) (fun _ => ?_)
  refine wo_foldlM (fun c o => wo_foldlM (fun c2 i => ?_) _ _) _ _
  refine wo_bind (wo_mgetM H i o _) (fun hio => ?_)
  refine wo_bind (wo_vgetM v o _) (fun vo => ?_)
  refine wo_bind (wo_vgetM v i _) (fun vi => ?_)
  exact wo_tail (wo_tail (wo_msetM H i o _))

theorem wo_qrStepS (s : α → α) (outs : Nat) (state : MRef × MRef) (i : Nat) :
    WritesOnly (qrStepS s outs state i) ([] : List Nat) := by
  unfold qrStepS
  refine wo_bind (wo_IsZeroS _ _) (fun z => ?_)
  refine wo_ite (wo_pure _ _) ?_
  refine wo_bind (wo_VectorFromColumnS _ _) (fun x => ?_)
  refine wo_bindAllocV (allocV_BasisVectorS _ _) (fun e => ?_)
  refine wo_bindAllocM (allocM_IdentityS _) (fun H => ?_)
  refine wo_bind (wo_cons (wo_HouseholderIntoS s x e (.slice H i outs i outs)))
    (fun _ => ?_)
  refine wo_bind (wo_of_allocM (allocM_ApplyToMatrixS H state.2) _) (fun tmpR2 => ?_)
  refine wo_bind (wo_of_allocM (allocM_ComposeS (.dual H) state.1) _) (fun tmpQ2 => ?_)
  exact wo_pure _ _

theorem wo_DecomposeIntoQRS (s : α → α) (A Q R : MRef) :
    WritesOnly (DecomposeIntoQRS s A Q R) [Q.baseId, R.baseId] := by
  unfold DecomposeIntoQRS
  refine wo_ite (wo_throw _ _) (wo_ite (wo_throw _ _) ?_)
  refine wo_bindAllocM (allocM_IdentityS _) (fun tmpQ0 => ?_)
  refine wo_bind (wo_foldlM (fun c i => wo_nil (wo_qrStepS s _ c i)) _ _)
    (fun res => ?_)
  refine wo_bind (wo_single_mem (by simp) (wo_CopyIntoS res.1 Q)) (fun _ => ?_)
  exact wo_single_mem (by simp) (wo_CopyIntoS res.2 R)

/-- C10: `DecomposeQR` never mutates its input: for a matrix reference `A`
already allocated before the call, a successful run of `DecomposeQRS` leaves
the backing array of `A` untouched, returns `Q` and `R` as freshly allocated
dense matrices (shapes `outs`-square and `(ins, outs)`) whose backing ids are
new, mutually distinct and distinct from `A`'s, and any later `Set` on `Q` or
on `R` also leaves `A`'s backing array unchanged. -/
theorem c10_noAliasFrame {α : Type} [LinearOrderedField α] (s : α → α)
    (A : MRef) (st : St α) (Q R : MRef) (st' : St α)
    (hA : A.baseId < st.next)
    (h : DecomposeQRS s A st = .ok ((Q, R), st')) :
    st'.heap A.baseId = st.heap A.baseId ∧
    Q = MRef.arr st.next (A.shape).2 (A.shape).2 ∧
    R = MRef.arr (st.next + 1) (A.shape).1 (A.shape).2 ∧
    Q.baseId ≠ A.baseId ∧ R.baseId ≠ A.baseId ∧ Q.baseId ≠ R.baseId ∧
    (∀ (i o : Nat) (v : α) (stA : St α) (u : Unit) (stB : St α),
      msetM Q i o v stA = .ok (u, stB) →
      stB.heap A.baseId = stA.heap A.baseId) ∧
    (∀ (i o : Nat) (v : α) (stA : St α) (u : Unit) (stB : St α),
      msetM R i o v stA = .ok (u, stB) →
      stB.heap A.baseId = stA.heap A.baseId) := by
  unfold DecomposeQRS at h
  obtain ⟨Q1, st1, h1, h⟩ := bind_ok h
  obtain ⟨R1, st2, h2, h⟩ := bind_ok h
  obtain ⟨u0, st3, h3, h4⟩ := bind_ok h
  have e1 := Except.ok.inj h1
  have hQ1 : Q1 = .arr st.next (A.shape).2 (A.shape).2 := (congrArg Prod.fst e1).symm
  have hst1 : st1 = ⟨fun id => if id = st.next then (fun _ => 0) else st.heap id,
      st.next + 1⟩ := (congrArg Prod.snd e1).symm
  have e2 := Except.ok.inj h2
  have hR1 : R1 = .arr st1.next (A.shape).1 (A.shape).2 := (congrArg Prod.fst e2).symm
  have hst2 : st2 = ⟨fun id => if id = st1.next then (fun _ => 0) else st1.heap id,
      st1.next + 1⟩ := (congrArg Prod.snd e2).symm
  have hst1n : st1.next = st.next + 1 := by rw [hst1]
  have hst1h : ∀ id, id ≠ st.next → st1.heap id = st.heap id := by
    intro id hid
    rw [hst1]
    exact if_neg hid
  have hst2n : st2.next = st1.next + 1 := by rw [hst2]
  have hst2h : ∀ id, id ≠ st1.next → st2.heap id = st1.heap id := by
    intro id hid
    rw [hst2]
    exact if_neg hid
  have hR1a : R1 = .arr (st.next + 1) (A.shape).1 (A.shape).2 := by
    rw [hR1, hst1n]
  have e4 := Except.ok.inj h4
  have hQ : Q = Q1 := (congrArg Prod.fst (congrArg Prod.fst e4)).symm
  have hR : R = R1 := (congrArg Prod.snd (congrArg Prod.fst e4)).symm
  have hst3 : st' = st3 := (congrArg Prod.snd e4).symm
  have hAne1 : A.baseId ≠ st.next := Nat.ne_of_lt hA
  have hAne2 : A.baseId ≠ st.next + 1 :=
    Nat.ne_of_lt (lt_trans hA (Nat.lt_succ_self _))
  obtain ⟨hm1, hm2⟩ := wo_DecomposeIntoQRS s A Q1 R1 st2 u0 st3 h3
  have hAlt2 : A.baseId < st2.next := by
    rw [hst2n, hst1n]
    omega
  have hnotin : A.baseId ∉ [Q1.baseId, R1.baseId] := by
    intro hmem
    rw [hQ1, hR1a] at hmem
    simp only [MRef.baseId, List.mem_cons] at hmem
    rcases hmem with hh | hh | hh
    · exact hAne1 hh
    · exact hAne2 hh
    · exact List.not_mem_nil _ hh
  have hQb : Q.baseId = st.next := by
    rw [hQ, hQ1]
    rfl
  have hRb : R.baseId = st.next + 1 := by
    rw [hR, hR1a]
    rfl
  refine ⟨?_, ?_, ?_, ?_, ?_, ?_, ?_, ?_⟩
  · rw [hst3, hm2 A.baseId hAlt2 hnotin,
      hst2h A.baseId (by rw [hst1n]; exact hAne2), hst1h A.baseId hAne1]
  · rw [hQ, hQ1]
  · rw [hR, hR1a]
  · rw [hQb]
    exact Ne.symm hAne1
  · rw [hRb]
    exact Ne.symm hAne2
  · rw [hQb, hRb]
    omega
  · intro i o v stA u2 stB hm
    refine (msetM_frame Q i o v stA u2 stB hm).2 A.baseId ?_
    rw [hQb]
    exact hAne1
  · intro i o v stA u2 stB hm
    refine (msetM_frame R i o v stA u2 stB hm).2 A.baseId ?_
    rw [hRb]
    exact hAne2

/-- C10 witness: a concrete run over ℚ. `A` is the 1×1 matrix with backing
array id 0 in a heap whose next fresh id is 1; `DecomposeQRS` succeeds and
the backing array of `A` is unchanged afterwards. -/
theorem c10_noAliasFrame_witness :
    ((MRef.arr 0 1 1).baseId < (⟨fun _ _ => (0 : ℚ), 1⟩ : St ℚ).next) ∧
    (∃ Q R st2, DecomposeQRS (fun q => q) (MRef.arr 0 1 1)
        (⟨fun _ _ => (0 : ℚ), 1⟩ : St ℚ) = .ok ((Q, R), st2) ∧
      st2.heap ((MRef.arr 0 1 1).baseId) =
        (⟨fun _ _ => (0 : ℚ), 1⟩ : St ℚ).heap ((MRef.arr 0 1 1).baseId)) :=
  ⟨by decide, _, _, _, rfl,
    (c10_noAliasFrame (fun q => q) (MRef.arr 0 1 1) ⟨fun _ _ => (0 : ℚ), 1⟩
      _ _ _ (by decide) rfl).1⟩

end HeapFrame

end Linear
